import Mathlib

/-!
# checkpoint: the checkpoint engine of `LukeTarr/checkpoint`

A shallow embedding of `internal/checkpoints/checkpoints.go`, `cmd/push.go` and
`cmd/pop.go`.

* Go strings are lists of characters (`Str`); a string constant of the source is
  written `"...".toList`.  Every character the code inspects (`/`, `\`, `.`, NUL,
  newline) is ASCII, so working with characters instead of UTF-8 bytes changes
  nothing.
* The host is a Unix one: `filepath.Separator` is `/` and paths have no volume
  name.
* Library functions of Go (`strings.Split`, `filepath.Clean`, `filepath.Dir`,
  `filepath.Join`, `sort.Slice`, the `os` file operations) are not part of the
  repository; each is modelled by a definition whose comment names it.
-/

namespace Checkpoint

/-! ## Strings and paths (models of the Go library) -/

/-- A Go string. -/
abbrev Str := List Char

/-- The value of `strings.Split(s, string(sep))` for a one-character separator:
the pieces between successive separators, `n + 1` pieces for `n` separators. -/
def splitSep (sep : Char) : Str → List Str
  | [] => [[]]
  | c :: cs =>
    if c = sep then [] :: splitSep sep cs
    else
      match splitSep sep cs with
      | [] => [[c]]
      | s :: ss => (c :: s) :: ss

/-- The value of `strings.Join(parts, string(sep))`. -/
def joinSep (sep : Char) : List Str → Str
  | [] => []
  | [s] => s
  | s :: t :: rest => s ++ sep :: joinSep sep (t :: rest)

/-- The value of `strings.Count(s, string(c))`. -/
def countChar (c : Char) (s : Str) : Nat := s.count c

/-- The value of `strings.HasPrefix(s, p)`. -/
def HasPrefix (s p : Str) : Bool := p.isPrefixOf s

/-- The value of `strings.Contains(s, string(c))`. -/
def ContainsChar (s : Str) (c : Char) : Bool := s.contains c

/-- One path element in the scan of `filepath.Clean`.  `out` is the stack of the
elements kept so far, the last one kept first.  An empty element and `.` are
dropped; `..` removes the last kept element when there is one that is not itself
`..`, is appended when the path is not rooted, and is dropped at the root; any
other element is appended. -/
def cleanElem (rooted : Bool) (out : List Str) (seg : Str) : List Str :=
  if seg = [] then out
  else if seg = ['.'] then out
  else if seg = ['.', '.'] then
    match out with
    | top :: rest =>
      if top ≠ ['.', '.'] then rest
      else if !rooted then seg :: out
      else out
    | [] => if !rooted then [seg] else out
  else seg :: out

/-- Whether a path is rooted: `os.IsPathSeparator(path[0])`. -/
def isRooted (path : Str) : Bool := path.head? == some '/'

/-- The elements `filepath.Clean` keeps of `path`, the last one first. -/
def cleanStack (path : Str) : List Str :=
  (splitSep '/' path).foldl (cleanElem (isRooted path)) []

/-- The buffer `filepath.Clean` returns for the kept elements `out`: they are
joined with separators, after the leading separator of a rooted path; an empty
buffer is turned into `.`. -/
def renderPath (rooted : Bool) (out : List Str) : Str :=
  if rooted then '/' :: joinSep '/' out
  else if out = [] then ['.']
  else joinSep '/' out

/-- The value of `filepath.Clean(path)` on Unix: the shortest path name
equivalent to `path` by purely lexical processing. -/
def Clean (path : Str) : Str :=
  if path = [] then ['.']
  else renderPath (isRooted path) (cleanStack path).reverse

/-- The value of `filepath.Dir(path)` on Unix: everything up to and including
the last separator, cleaned. -/
def Dir (path : Str) : Str :=
  Clean (path.rdropWhile (fun c => c != '/'))

/-- The value of `filepath.Join(a, b)` on Unix: the non-empty elements joined
with the separator, cleaned; empty when both are empty. -/
def Join (a b : Str) : Str :=
  if a ≠ [] then Clean (a ++ '/' :: b)
  else if b ≠ [] then Clean b
  else []

/-! ## Constants of the package -/

/-- The constant `DirName`. -/
def DirName : Str := ".checkpoints".toList

/-- The constant `metaFileName`. -/
def metaFileName : Str := "meta.json".toList

/-- The constant `DirPerm`, `0o755`. -/
def DirPerm : Nat := 493

/-- The constant `FilePerm`, `0o644`. -/
def FilePerm : Nat := 420

/-! ## Pure functions of `checkpoints.go` -/

/-- The function `IsCheckpointPath`. -/
def IsCheckpointPath (rel : Str) : Bool :=
  if rel = DirName then true
  else if HasPrefix rel (DirName ++ ['/']) then true
  else false

/-- Errors of `ValidateCheckpointName`, one per `errors.New` of the function. -/
inductive NameError where
  | empty
  | separators
  | invalid
  deriving DecidableEq, Repr

/-- The function `ValidateCheckpointName`; `none` is the `nil` error. -/
def ValidateCheckpointName (name : Str) : Option NameError :=
  if name = [] then some NameError.empty
  else if ContainsChar name '/' || ContainsChar name '\\' then some NameError.separators
  else if name = ['.'] ∨ name = ['.', '.'] then some NameError.invalid
  else none

/-- The loop of `ListRepoFiles` over the output of `git ls-files -co
--exclude-standard -z`: the entries between NUL bytes, the empty ones and the
ones under the checkpoint storage area skipped. -/
def ListRepoFiles (output : Str) : List Str :=
  (splitSep (Char.ofNat 0) output).filter (fun entry => !(entry == []) && !IsCheckpointPath entry)

/-- The tally of `RequiredDirs`'s map: `dir` becomes a key unless it is one. -/
def insertKey (dir : Str) (keys : List Str) : List Str :=
  if dir ∈ keys then keys else keys ++ [dir]

/-- The inner loop of `RequiredDirs` for one file, started at `dir =
filepath.Dir(rel)`: every directory on the way up becomes a key of `required`,
until `.` or the root is reached or `filepath.Dir` stops changing its argument.
One unit of fuel is one evaluation of the loop condition; `none` is a loop that
has not finished within the fuel. -/
def requiredWalk : Nat → Str → List Str → Option (List Str)
  | 0, _, _ => none
  | fuel + 1, dir, required =>
    if dir = ['.'] ∨ dir = ['/'] then some required
    else
      let required := insertKey dir required
      let next := Dir dir
      if next = dir then some required
      else requiredWalk fuel next required

/-- The function `RequiredDirs`; the result lists the keys of the map it builds.
Each file is given fuel for two more iterations than it has characters. -/
def RequiredDirs (files : List Str) : Option (List Str) :=
  files.foldlM (fun required rel => requiredWalk (rel.length + 2) (Dir rel) required) []

/-- What `RemoveEmptyDirs` asks of the error of a failed `os.Remove`, in the
order in which it asks. -/
structure ErrView (ε : Type) where
  /-- The test `errors.Is(err, os.ErrNotExist)`. -/
  isNotExist : ε → Bool
  /-- The test `errors.As(err, &pathErr)`. -/
  asPathError : ε → Bool
  /-- The test `pathErr.Err == os.ErrPermission`. -/
  innerIsPermission : ε → Bool
  /-- The test `pathErr.Err == os.ErrInvalid`. -/
  innerIsInvalid : ε → Bool
  /-- The test `strings.Contains(pathErr.Err.Error(), "directory not empty")`. -/
  innerSaysNotEmpty : ε → Bool
  /-- The test `strings.Contains(err.Error(), "directory not empty")`. -/
  saysNotEmpty : ε → Bool

/-- Whether `RemoveEmptyDirs` goes on to the next directory after `os.Remove`
failed with `e` (the `continue` branches), rather than returning the error. -/
def ErrView.skips {ε : Type} (view : ErrView ε) (e : ε) : Bool :=
  if view.isNotExist e then true
  else if view.asPathError e &&
      (view.innerIsPermission e || view.innerIsInvalid e || view.innerSaysNotEmpty e) then true
  else if view.saysNotEmpty e then true
  else false

/-- The body of the first loop of `RemoveEmptyDirs` for the candidate `dir`:
`unique` lists the keys of the map in the order in which they were inserted. -/
def uniqueStep (unique : List Str) (dir : Str) : List Str :=
  let clean := Clean dir
  if clean = ['.'] ∨ clean = ['/'] then unique
  else if IsCheckpointPath clean || clean == ".git".toList ||
      HasPrefix clean (".git".toList ++ ['/']) then unique
  else insertKey clean unique

/-- The first loop of `RemoveEmptyDirs`: the keys of the map `unique`. -/
def uniqueDirs (candidates : List Str) : List Str :=
  candidates.foldl uniqueStep []

/-- The sort key of `RemoveEmptyDirs`: `strings.Count(dir, "/")`. -/
def depth (dir : Str) : Nat := countChar '/' dir

/-- What is known of the slice `sorted` of `RemoveEmptyDirs` once `sort.Slice`
has returned: Go ranges over the map `unique` in an unspecified order and
`sort.Slice` is not stable, so `sorted` is some rearrangement of the keys in
which no directory comes before a deeper one. -/
def DepthOrder (order : List Str → List Str) : Prop :=
  ∀ l, (order l).Perm l ∧ (order l).Pairwise (fun a b => depth b ≤ depth a)

/-- One order `sort.Slice` may produce: insertion sort, deepest first, equal
depths kept in the order of insertion. -/
def depthSort (l : List Str) : List Str :=
  l.insertionSort (fun a b => depth b ≤ depth a)

/-- The last loop of `RemoveEmptyDirs` over `sorted`, on a state `σ` of the file
system with `osRemove` for `os.Remove`.  The first component of the result lists
the directories `os.Remove` was called on, in order; the second is the error
returned, or the state at `return nil`. -/
def removeLoop {σ ε : Type} (view : ErrView ε) (osRemove : σ → Str → Except ε σ)
    (root : Str) (required : List Str) : List Str → σ → List Str × Except ε σ
  | [], st => ([], Except.ok st)
  | dir :: rest, st =>
    if dir ∈ required then removeLoop view osRemove root required rest st
    else
      let path := Join root dir
      match osRemove st path with
      | Except.ok st' =>
        let r := removeLoop view osRemove root required rest st'
        (dir :: r.1, r.2)
      | Except.error e =>
        if view.skips e then
          let r := removeLoop view osRemove root required rest st
          (dir :: r.1, r.2)
        else ([dir], Except.error e)

/-- The function `RemoveEmptyDirs` together with the list of the directories it
called `os.Remove` on.  `order` stands for the iteration over the map and
`sort.Slice`. -/
def RemoveEmptyDirsTrace {σ ε : Type} (view : ErrView ε) (osRemove : σ → Str → Except ε σ)
    (order : List Str → List Str) (st : σ) (root : Str) (candidates : List Str)
    (required : List Str) : List Str × Except ε σ :=
  removeLoop view osRemove root required (order (uniqueDirs candidates)) st

/-- The function `RemoveEmptyDirs`. -/
def RemoveEmptyDirs {σ ε : Type} (view : ErrView ε) (osRemove : σ → Str → Except ε σ)
    (order : List Str → List Str) (st : σ) (root : Str) (candidates : List Str)
    (required : List Str) : Except ε σ :=
  (RemoveEmptyDirsTrace view osRemove order st root candidates required).2

/-- The directories `RemoveEmptyDirs` called `os.Remove` on, in order. -/
def removeAttempts {σ ε : Type} (view : ErrView ε) (osRemove : σ → Str → Except ε σ)
    (order : List Str → List Str) (st : σ) (root : Str) (candidates : List Str)
    (required : List Str) : List Str :=
  (RemoveEmptyDirsTrace view osRemove order st root candidates required).1

/-- Directory `a` is a proper ancestor of the path `d`: `d` continues `a` after
a separator. -/
def IsProperAncestor (a d : Str) : Prop := (a ++ ['/']) <+: d

/-! ### Line counting -/

/-- The error result of one `file.Read`. -/
inductive ReadErr where
  | nil
  | eof
  | failed
  deriving DecidableEq, Repr

/-- One call of `file.Read(buf)`: the `n` bytes placed in `buf` and the error. -/
structure ReadStep where
  data : List Nat
  err : ReadErr
  deriving DecidableEq, Repr

/-- The local variables of `countLines`. -/
structure LineState where
  lines : Nat
  sawData : Bool
  lastByte : Nat
  deriving DecidableEq, Repr

/-- The loop `for _, b := range buf[:n]` of `countLines`. -/
def scanBytes (data : List Nat) (st : LineState) : LineState :=
  data.foldl (fun st b =>
    { st with lines := if b = 10 then st.lines + 1 else st.lines, lastByte := b }) st

/-- The statements of `countLines` after its loop. -/
def finishLines (st : LineState) : Nat :=
  if st.sawData && st.lastByte != 10 then st.lines + 1 else st.lines

/-- The read loop of `countLines` over the successive results of `file.Read`; a
read after the last listed one returns `0, io.EOF`.  `none` is the return with a
read error. -/
def countLoop : List ReadStep → LineState → Option Nat
  | [], st => some (finishLines st)
  | step :: rest, st =>
    let st := if step.data.length > 0 then scanBytes step.data { st with sawData := true } else st
    match step.err with
    | ReadErr.nil => countLoop rest st
    | ReadErr.eof => some (finishLines st)
    | ReadErr.failed => none

/-- The function `countLines` once `os.Open` has succeeded. -/
def countReads (reads : List ReadStep) : Option Nat :=
  countLoop reads { lines := 0, sawData := false, lastByte := 0 }

/-- The function `countLines`: `opened` is the result of `os.Open(path)`, `none`
when it fails, otherwise the results of the reads of the file. -/
def countLines (opened : Option (List ReadStep)) : Option Nat :=
  match opened with
  | none => none
  | some reads => countReads reads

/-- The reads of a file that come as the chunks `chunks`, one per call, followed
by a read of nothing with `io.EOF`. -/
def readsOf (chunks : List (List Nat)) : List ReadStep :=
  chunks.map (fun c => { data := c, err := ReadErr.nil }) ++ [{ data := [], err := ReadErr.eof }]

/-- The reads of a file whose last chunk comes together with `io.EOF`. -/
def readsOfEager (chunks : List (List Nat)) (last : List Nat) : List ReadStep :=
  chunks.map (fun c => { data := c, err := ReadErr.nil }) ++ [{ data := last, err := ReadErr.eof }]

/-- The line count of the specification: the number of newline bytes, plus one
if the content is not empty and does not end in a newline. -/
def specLineCount (content : List Nat) : Nat :=
  content.count 10 + (if content ≠ [] ∧ content.getLast? ≠ some 10 then 1 else 0)

/-- The type `Stats`. -/
structure Stats where
  FileCount : Nat
  LineCount : Nat
  deriving DecidableEq, Repr

/-- The loop of `CheckpointStats` over the files still to count. -/
def statsLoop (openFile : Str → Option (List ReadStep)) (checkpointDir : Str) :
    List Str → Stats → Option Stats
  | [], stats => some stats
  | rel :: rest, stats =>
    let path := Join checkpointDir rel
    match countLines (openFile path) with
    | none => none
    | some count =>
      statsLoop openFile checkpointDir rest { stats with LineCount := stats.LineCount + count }

/-- The function `CheckpointStats`: `listFiles` is `ListCheckpointFiles` and
`openFile` gives, for a path, the result of `os.Open` and of the reads that
follow; `none` is a return with an error. -/
def CheckpointStats (listFiles : Str → Option (List Str))
    (openFile : Str → Option (List ReadStep)) (checkpointDir : Str) : Option Stats :=
  match listFiles checkpointDir with
  | none => none
  | some files =>
    statsLoop openFile checkpointDir files { FileCount := files.length, LineCount := 0 }

/-! ### The latest checkpoint -/

/-- The type `Meta`; `CreatedAt` is the instant, in nanoseconds. -/
structure Meta where
  Name : Str
  CreatedAt : Int
  deriving DecidableEq, Repr

/-- One entry of `os.ReadDir(checkpointsRoot)`: its name, whether it is a
directory, and the modification time of `entry.Info()`, `none` if that fails. -/
structure DirEntry where
  name : Str
  isDir : Bool
  modTime : Option Int
  deriving DecidableEq, Repr

/-- The result of `os.ReadDir(checkpointsRoot)`. -/
inductive ReadDirResult where
  | notExist
  | failed
  | entries (es : List DirEntry)
  deriving DecidableEq, Repr

/-- Errors of `LatestCheckpointName`. -/
inductive LatestError where
  | noCheckpoints
  | readCheckpoints
  deriving DecidableEq, Repr

/-- The loop of `LatestCheckpointName` that collects `candidates`; `readMeta` is
`ReadMeta`, `none` when it returns an error. -/
def collectCandidates (readMeta : Str → Option Meta) (checkpointsRoot : Str) :
    List DirEntry → List Meta
  | [] => []
  | entry :: rest =>
    if !entry.isDir then collectCandidates readMeta checkpointsRoot rest
    else
      match readMeta (Join checkpointsRoot entry.name) with
      | none =>
        match entry.modTime with
        | none => collectCandidates readMeta checkpointsRoot rest
        | some t =>
          { Name := entry.name, CreatedAt := t } :: collectCandidates readMeta checkpointsRoot rest
      | some m => m :: collectCandidates readMeta checkpointsRoot rest

/-- The comparison given to `sort.Slice` by `LatestCheckpointName`:
`a.CreatedAt.After(b.CreatedAt)`. -/
def createdAfter (a b : Meta) : Bool := decide (b.CreatedAt < a.CreatedAt)

/-- What is known of a slice once `sort.Slice` has returned (it is not stable):
a rearrangement in which no element comes before one that is after it in the
comparison. -/
def NewestFirst (sortSlice : List Meta → List Meta) : Prop :=
  ∀ l, (sortSlice l).Perm l ∧ (sortSlice l).Pairwise (fun a b => ¬ createdAfter b a = true)

/-- One result `sort.Slice` may give: insertion sort, newest first. -/
def newestSort (l : List Meta) : List Meta :=
  l.insertionSort (fun a b => b.CreatedAt ≤ a.CreatedAt)

/-- The function `LatestCheckpointName`. -/
def LatestCheckpointName (sortSlice : List Meta → List Meta) (readDir : ReadDirResult)
    (readMeta : Str → Option Meta) (checkpointsRoot : Str) : Except LatestError Str :=
  match readDir with
  | ReadDirResult.notExist => Except.error LatestError.noCheckpoints
  | ReadDirResult.failed => Except.error LatestError.readCheckpoints
  | ReadDirResult.entries es =>
    let candidates := collectCandidates readMeta checkpointsRoot es
    if candidates.length = 0 then Except.error LatestError.noCheckpoints
    else
      -- `candidates[0]` after the sort; the sort rearranges a slice that is not empty
      match sortSlice candidates with
      | [] => Except.error LatestError.noCheckpoints
      | first :: _ => Except.ok first.Name


/-! ## The file system (model of the `os` package)

A file system is a finite table from locations to nodes.  A location is the list
of the names on the way down from the root directory `/`, which is always there.
Paths are resolved as the kernel does: `.` and `..` are interpreted, a symbolic
link in the middle of a path is followed, and one at the end is followed or not
according to the call.  Relative paths are taken from `/` (the code only builds
paths from the absolute root of the repository).  Owners, times and the
permission bits of directories are not modelled; every operation is permitted.
-/

/-- An entry of the file system: a regular file with its bytes and permission
bits, a symbolic link with its target, or a directory. -/
inductive Node where
  | file (content : List Nat) (perm : Nat)
  | symlink (target : Str)
  | dir
  deriving DecidableEq, Repr

/-- A location: the names from the root directory down. -/
abbrev Key := List Str

/-- A file system. -/
abbrev FS := List (Key × Node)

/-- The error numbers the model produces. -/
inductive Errno where
  | ENOENT
  | ENOTDIR
  | EISDIR
  | ENOTEMPTY
  | EEXIST
  | ELOOP
  | EINVAL
  | EBUSY
  deriving DecidableEq, Repr

/-- The entry stored at a location of the table. -/
def lookupKey : FS → Key → Option Node
  | [], _ => none
  | (k, n) :: rest, key => if k = key then some n else lookupKey rest key

/-- The node at a location; the root directory is always there. -/
def nodeAt (fs : FS) (key : Key) : Option Node :=
  if key = [] then some Node.dir else lookupKey fs key

/-- The table with `node` at `key`, in place of the entry there if there is one. -/
def putNode : FS → Key → Node → FS
  | [], key, node => [(key, node)]
  | (k, n) :: rest, key, node =>
    if k = key then (k, node) :: rest else (k, n) :: putNode rest key node

/-- The table without the entry at `key`. -/
def eraseNode (fs : FS) (key : Key) : FS :=
  fs.filter (fun e => decide (e.1 ≠ key))

/-- The table without the entry at `key` and everything beneath it. -/
def eraseTree (fs : FS) (key : Key) : FS :=
  fs.filter (fun e => decide (¬ key <+: e.1))

/-- Whether something lies beneath `key`. -/
def hasChild (fs : FS) (key : Key) : Bool :=
  fs.any (fun e => decide (key <+: e.1 ∧ e.1 ≠ key))

/-- The names of a path, in order. -/
def segments (path : Str) : List Str :=
  (splitSep '/' path).filter (fun s => decide (s ≠ []))

/-- Path resolution from the directory `cur` along the names `rest`.  The result
is the location the path denotes; the last name need not exist.  A symbolic link
met on the way is replaced by its target, except at the end of the path when
`followLast` is false.  One unit of fuel is one name looked at. -/
def resolve (fs : FS) (followLast : Bool) : Nat → Key → List Str → Except Errno Key
  | 0, _, _ => Except.error Errno.ELOOP
  | _ + 1, cur, [] => Except.ok cur
  | fuel + 1, cur, seg :: rest =>
    if seg = ['.'] then resolve fs followLast fuel cur rest
    else if seg = ['.', '.'] then resolve fs followLast fuel cur.dropLast rest
    else
      let key := cur ++ [seg]
      match nodeAt fs key with
      | none => if rest = [] then Except.ok key else Except.error Errno.ENOENT
      | some Node.dir => resolve fs followLast fuel key rest
      | some (Node.file _ _) => if rest = [] then Except.ok key else Except.error Errno.ENOTDIR
      | some (Node.symlink target) =>
        if rest = [] ∧ followLast = false then Except.ok key
        else resolve fs followLast fuel (if isRooted target then [] else cur)
          (segments target ++ rest)

/-- The location a path denotes. -/
def resolvePath (fs : FS) (followLast : Bool) (path : Str) : Except Errno Key :=
  resolve fs followLast 1024 [] (segments path)

/-- The call `os.Lstat(path)`: the node at the path, a final symbolic link not
followed. -/
def osLstat (fs : FS) (path : Str) : Except Errno Node :=
  match resolvePath fs false path with
  | Except.error e => Except.error e
  | Except.ok key =>
    match nodeAt fs key with
    | none => Except.error Errno.ENOENT
    | some n => Except.ok n

/-- The call `os.Stat(path)`: the node at the path, symbolic links followed. -/
def osStat (fs : FS) (path : Str) : Except Errno Node :=
  match resolvePath fs true path with
  | Except.error e => Except.error e
  | Except.ok key =>
    match nodeAt fs key with
    | none => Except.error Errno.ENOENT
    | some n => Except.ok n

/-- The call `os.Remove(path)`: removes a file, a symbolic link or an empty
directory. -/
def osRemove (fs : FS) (path : Str) : Except Errno FS :=
  match resolvePath fs false path with
  | Except.error e => Except.error e
  | Except.ok key =>
    if key = [] then Except.error Errno.EBUSY
    else
      match nodeAt fs key with
      | none => Except.error Errno.ENOENT
      | some Node.dir =>
        if hasChild fs key then Except.error Errno.ENOTEMPTY
        else Except.ok (eraseNode fs key)
      | some _ => Except.ok (eraseNode fs key)

/-- The call `os.Mkdir(path, perm)`. -/
def osMkdir (fs : FS) (path : Str) : Except Errno FS :=
  match resolvePath fs false path with
  | Except.error e => Except.error e
  | Except.ok key =>
    match nodeAt fs key with
    | some _ => Except.error Errno.EEXIST
    | none => Except.ok (putNode fs key Node.dir)

/-- The call `os.MkdirAll` for the path `done` extended by the names `rest`: each
level that `os.Stat` does not find is made with `os.Mkdir`; a level that is there
and is not a directory is an error. -/
def mkdirAllFrom (fs : FS) (done : Str) : List Str → Except Errno FS
  | [] => Except.ok fs
  | seg :: rest =>
    let p := done ++ '/' :: seg
    match osStat fs p with
    | Except.ok Node.dir => mkdirAllFrom fs p rest
    | Except.ok _ => Except.error Errno.ENOTDIR
    | Except.error _ =>
      match osMkdir fs p with
      | Except.error e => Except.error e
      | Except.ok fs' => mkdirAllFrom fs' p rest

/-- The call `os.MkdirAll(path, perm)`. -/
def osMkdirAll (fs : FS) (path : Str) : Except Errno FS :=
  mkdirAllFrom fs [] (segments path)

/-- The call `os.RemoveAll(path)`: removes the path and what is beneath it; a
path that does not exist is not an error. -/
def osRemoveAll (fs : FS) (path : Str) : Except Errno FS :=
  match resolvePath fs false path with
  | Except.error Errno.ENOENT => Except.ok fs
  | Except.error e => Except.error e
  | Except.ok key =>
    if key = [] then Except.error Errno.EBUSY
    else Except.ok (eraseTree fs key)

/-- The call `os.Symlink(target, path)`. -/
def osSymlink (fs : FS) (target path : Str) : Except Errno FS :=
  match resolvePath fs false path with
  | Except.error e => Except.error e
  | Except.ok key =>
    match nodeAt fs key with
    | some _ => Except.error Errno.EEXIST
    | none => Except.ok (putNode fs key (Node.symlink target))

/-- The call `os.Readlink(path)`. -/
def osReadlink (fs : FS) (path : Str) : Except Errno Str :=
  match osLstat fs path with
  | Except.error e => Except.error e
  | Except.ok (Node.symlink target) => Except.ok target
  | Except.ok _ => Except.error Errno.EINVAL

/-- The call `os.Open(path)`: the location of the file opened for reading,
symbolic links followed. -/
def osOpen (fs : FS) (path : Str) : Except Errno Key :=
  match resolvePath fs true path with
  | Except.error e => Except.error e
  | Except.ok key =>
    match nodeAt fs key with
    | none => Except.error Errno.ENOENT
    | some _ => Except.ok key

/-- The call `os.OpenFile(path, os.O_CREATE|os.O_TRUNC|os.O_WRONLY, perm)`:
symbolic links are followed; the file is created empty with the permission bits
`perm` (the umask is not modelled) when nothing is there, and emptied when it is
there.  The result is the new table and the location of the open file. -/
def osOpenFileTrunc (fs : FS) (path : Str) (perm : Nat) : Except Errno (FS × Key) :=
  match resolvePath fs true path with
  | Except.error e => Except.error e
  | Except.ok key =>
    match nodeAt fs key with
    | none => Except.ok (putNode fs key (Node.file [] perm), key)
    | some (Node.file _ p) => Except.ok (putNode fs key (Node.file [] p), key)
    | some Node.dir => Except.error Errno.EISDIR
    | some (Node.symlink _) => Except.error Errno.ELOOP

/-- The bytes read through an open file until the end of the file. -/
def readAll (fs : FS) (key : Key) : Except Errno (List Nat) :=
  match nodeAt fs key with
  | some (Node.file content _) => Except.ok content
  | some Node.dir => Except.error Errno.EISDIR
  | _ => Except.error Errno.ENOENT

/-- The bytes `data` written at the end of an open file. -/
def writeAll (fs : FS) (key : Key) (data : List Nat) : Except Errno FS :=
  match nodeAt fs key with
  | some (Node.file content p) => Except.ok (putNode fs key (Node.file (content ++ data) p))
  | _ => Except.error Errno.ENOENT

/-- The call `os.Chmod(path, perm)`, symbolic links followed. -/
def osChmod (fs : FS) (path : Str) (perm : Nat) : Except Errno FS :=
  match resolvePath fs true path with
  | Except.error e => Except.error e
  | Except.ok key =>
    match nodeAt fs key with
    | none => Except.error Errno.ENOENT
    | some (Node.file content _) => Except.ok (putNode fs key (Node.file content perm))
    | some _ => Except.ok fs

/-- The value of `mode.Perm()`: the nine permission bits. -/
def permBits (mode : Nat) : Nat := mode % 512

/-- The order of Go strings: byte by byte, a proper prefix first. -/
def strLt : Str → Str → Bool
  | [], [] => false
  | [], _ :: _ => true
  | _ :: _, [] => false
  | a :: as, b :: bs =>
    if a.toNat < b.toNat then true
    else if b.toNat < a.toNat then false
    else strLt as bs

/-- The call `sort.Strings(files)`. -/
def sortStrings (files : List Str) : List Str :=
  files.insertionSort (fun a b => strLt b a = false)

/-- What `RemoveEmptyDirs` finds out about an error of `os.Remove`.  The error is
a `*PathError` around the error number: it is `os.ErrNotExist` for `ENOENT`, the
message of `ENOTEMPTY` is "directory not empty", and an error number is never
the value `os.ErrPermission` or `os.ErrInvalid` itself. -/
def errnoView : ErrView Errno where
  isNotExist := fun e => decide (e = Errno.ENOENT)
  asPathError := fun _ => true
  innerIsPermission := fun _ => false
  innerIsInvalid := fun _ => false
  innerSaysNotEmpty := fun e => decide (e = Errno.ENOTEMPTY)
  saysNotEmpty := fun e => decide (e = Errno.ENOTEMPTY)

/-! ## The functions of `checkpoints.go` that work on files -/

/-- The function `copySymlink`. -/
def copySymlink (fs : FS) (srcPath dstPath : Str) : Except Errno FS :=
  match osReadlink fs srcPath with
  | Except.error e => Except.error e
  | Except.ok link =>
    match osMkdirAll fs (Dir dstPath) with
    | Except.error e => Except.error e
    | Except.ok fs1 =>
      match osRemoveAll fs1 dstPath with
      | Except.error e => Except.error e
      | Except.ok fs2 => osSymlink fs2 link dstPath

/-- The function `copyFile`. -/
def copyFile (fs : FS) (srcPath dstPath : Str) (mode : Nat) : Except Errno FS :=
  match osMkdirAll fs (Dir dstPath) with
  | Except.error e => Except.error e
  | Except.ok fs1 =>
    match osOpen fs1 srcPath with
    | Except.error e => Except.error e
    | Except.ok srcFile =>
      match osOpenFileTrunc fs1 dstPath (permBits mode) with
      | Except.error e => Except.error e
      | Except.ok (fs2, dstFile) =>
        match readAll fs2 srcFile with
        | Except.error e => Except.error e
        | Except.ok data =>
          match writeAll fs2 dstFile data with
          | Except.error e => Except.error e
          | Except.ok fs3 => osChmod fs3 dstPath (permBits mode)

/-- The function `CopyEntry`. -/
def CopyEntry (fs : FS) (srcPath dstPath : Str) : Except Errno FS :=
  match osLstat fs srcPath with
  | Except.error e => Except.error e
  | Except.ok (Node.symlink _) => copySymlink fs srcPath dstPath
  | Except.ok Node.dir => osMkdirAll fs dstPath
  | Except.ok (Node.file _ mode) => copyFile fs srcPath dstPath mode

/-- The function `WriteMeta`; `encoded` is what the JSON encoder writes for the
metadata. -/
def WriteMeta (fs : FS) (checkpointDir : Str) (encoded : List Nat) : Except Errno FS :=
  let path := Join checkpointDir metaFileName
  match osOpenFileTrunc fs path FilePerm with
  | Except.error e => Except.error e
  | Except.ok (fs1, file) => writeAll fs1 file encoded

/-- The path `filepath.WalkDir` gives to its callback for the entry reached from
`root` by the names `names`: each level is `filepath.Join(path, name)`. -/
def walkPath (root : Str) (names : List Str) : Str :=
  names.foldl Join root

/-- The function `ListCheckpointFiles`, for a `checkpointDir` that is clean, as
`filepath.Join` makes the one the commands pass: every path of the walk is then
at least `rootLen` long and `path[rootLen:]` is its part after the directory (for
a directory with trailing separators the slice expression of the source can go
out of range, which is not modelled).  `filepath.WalkDir` does not follow
symbolic links and calls back for the root and for everything beneath it when it
is a directory; the order of the calls does not matter, the result is sorted. -/
def ListCheckpointFiles (fs : FS) (checkpointDir : Str) : Except Errno (List Str) :=
  let rootLen := checkpointDir.length + 1
  match resolvePath fs false checkpointDir with
  | Except.error e => Except.error e
  | Except.ok key =>
    match nodeAt fs key with
    | none => Except.error Errno.ENOENT
    | some Node.dir =>
      let files := fs.foldl (fun files e =>
        if key <+: e.1 ∧ e.1 ≠ key then
          let path := walkPath checkpointDir (e.1.drop key.length)
          if e.2 = Node.dir then files
          else
            let rel := path.drop rootLen
            if rel = metaFileName then files
            else files ++ [rel]
        else files) []
      Except.ok (sortStrings files)
    | some _ => Except.ok (sortStrings [])

/-! ## The commands `push` and `pop` -/

/-- The errors of `runPush` and `runPop`. -/
inductive CmdError where
  | name (e : NameError)
  | alreadyExists
  | notFound
  | cancelled
  | gitFailed
  | latest (e : LatestError)
  | os (e : Errno)
  | outOfFuel
  deriving DecidableEq, Repr

/-- The loop of `runPush` that copies the files of the repository into the
checkpoint. -/
def pushLoop (root checkpointDir : Str) : List Str → FS → Except CmdError FS
  | [], fs => Except.ok fs
  | rel :: rest, fs =>
    let srcPath := Join root rel
    let dstPath := Join checkpointDir rel
    match CopyEntry fs srcPath dstPath with
    | Except.error e => Except.error (CmdError.os e)
    | Except.ok fs' => pushLoop root checkpointDir rest fs'

/-- The function `runPush` from the call of `ValidateCheckpointName` on.  `root`
is the result of `FindRepoRoot`, `name` the name after the defaulting of the
first lines, `force` the flag, `git` the output of `git ls-files` (`none` when
the command fails) and `encoded` the JSON of the metadata. -/
def runPush (fs : FS) (root name : Str) (force : Bool) (git : Option Str)
    (encoded : List Nat) : Except CmdError FS :=
  match ValidateCheckpointName name with
  | some e => Except.error (CmdError.name e)
  | none =>
    let checkpointsRoot := Join root DirName
    let checkpointDir := Join checkpointsRoot name
    let cleared : Except CmdError FS :=
      match osStat fs checkpointDir with
      | Except.ok _ =>
        if !force then Except.error CmdError.alreadyExists
        else
          match osRemoveAll fs checkpointDir with
          | Except.error e => Except.error (CmdError.os e)
          | Except.ok fs' => Except.ok fs'
      | Except.error Errno.ENOENT => Except.ok fs
      | Except.error e => Except.error (CmdError.os e)
    match cleared with
    | Except.error e => Except.error e
    | Except.ok fs1 =>
      match osMkdirAll fs1 checkpointsRoot with
      | Except.error e => Except.error (CmdError.os e)
      | Except.ok fs2 =>
        match osMkdirAll fs2 checkpointDir with
        | Except.error e => Except.error (CmdError.os e)
        | Except.ok fs3 =>
          match git with
          | none => Except.error CmdError.gitFailed
          | some output =>
            let files := ListRepoFiles output
            match pushLoop root checkpointDir files fs3 with
            | Except.error e => Except.error e
            | Except.ok fs4 =>
              match WriteMeta fs4 checkpointDir encoded with
              | Except.error e => Except.error (CmdError.os e)
              | Except.ok fs5 => Except.ok fs5

/-- The loop of `runPop` that removes the files of the repository that are not
in the checkpoint; the second component collects `removalDirs`. -/
def deleteLoop (root : Str) (checkpointFiles : List Str) :
    List Str → FS → List Str → Except CmdError (FS × List Str)
  | [], fs, removalDirs => Except.ok (fs, removalDirs)
  | rel :: rest, fs, removalDirs =>
    if rel ∈ checkpointFiles then deleteLoop root checkpointFiles rest fs removalDirs
    else
      let path := Join root rel
      match osRemove fs path with
      | Except.error e => Except.error (CmdError.os e)
      | Except.ok fs' => deleteLoop root checkpointFiles rest fs' (removalDirs ++ [Dir rel])

/-- The loop of `runPop` that copies the files of the checkpoint back. -/
def restoreLoop (root checkpointDir : Str) : List Str → FS → Except CmdError FS
  | [], fs => Except.ok fs
  | rel :: rest, fs =>
    let srcPath := Join checkpointDir rel
    let dstPath := Join root rel
    match CopyEntry fs srcPath dstPath with
    | Except.error e => Except.error (CmdError.os e)
    | Except.ok fs' => restoreLoop root checkpointDir rest fs'

/-- The three phases of `runPop`, from the listing of the checkpoint on:
deletion, pruning, restoration. -/
def restorePhases (order : List Str → List Str) (fs : FS) (root checkpointDir : Str)
    (git : Option Str) : Except CmdError FS :=
  match ListCheckpointFiles fs checkpointDir with
  | Except.error e => Except.error (CmdError.os e)
  | Except.ok checkpointFiles =>
    match git with
    | none => Except.error CmdError.gitFailed
    | some output =>
      let currentFiles := ListRepoFiles output
      match RequiredDirs checkpointFiles with
      | none => Except.error CmdError.outOfFuel
      | some requiredDirs =>
        match deleteLoop root checkpointFiles currentFiles fs [] with
        | Except.error e => Except.error e
        | Except.ok (fs1, removalDirs) =>
          match RemoveEmptyDirs errnoView osRemove order fs1 root removalDirs requiredDirs with
          | Except.error e => Except.error (CmdError.os e)
          | Except.ok fs2 => restoreLoop root checkpointDir checkpointFiles fs2

/-- The function `runPop`.  `root` is the result of `FindRepoRoot`, `name` the
trimmed argument (empty when there is none), `latest` the result of
`LatestCheckpointName`, `confirmed` whether the user confirms, `git` the output
of `git ls-files` (`none` when the command fails), and `order` stands for the
iteration over the map and `sort.Slice` in `RemoveEmptyDirs`. -/
def runPop (order : List Str → List Str) (fs : FS) (root name : Str)
    (latest : Except LatestError Str) (confirmed : Bool) (git : Option Str) :
    Except CmdError FS :=
  let checkpointsRoot := Join root DirName
  let resolved : Except CmdError Str :=
    if name = [] then
      match latest with
      | Except.error e => Except.error (CmdError.latest e)
      | Except.ok n => Except.ok n
    else Except.ok name
  match resolved with
  | Except.error e => Except.error e
  | Except.ok name =>
    match ValidateCheckpointName name with
    | some e => Except.error (CmdError.name e)
    | none =>
      let checkpointDir := Join checkpointsRoot name
      match osStat fs checkpointDir with
      | Except.error Errno.ENOENT => Except.error CmdError.notFound
      | Except.error e => Except.error (CmdError.os e)
      | Except.ok _ =>
        if !confirmed then Except.error CmdError.cancelled
        else restorePhases order fs root checkpointDir git

/-! ## Concrete repositories

All of them have the root `/repo`; the checkpoint is `v1`, and the encoder is
taken to write the single byte 77 for the metadata. -/

/-- The output of `git ls-files -z` for the listed paths: each is followed by a
NUL byte. -/
def nulTerminated (paths : List Str) : Str :=
  (paths.map (fun p => p ++ [Char.ofNat 0])).flatten

/-- What `git ls-files -co --exclude-standard -z` prints in a repository without
ignore rules: the files and symbolic links beneath `root`, those of `.git` left
out, as paths relative to `root`, sorted, each followed by a NUL byte. -/
def gitLsFiles (fs : FS) (root : Str) : Str :=
  let key := segments root
  let paths := fs.foldl (fun paths e =>
    if key <+: e.1 ∧ e.1 ≠ key ∧ e.2 ≠ Node.dir ∧
        (e.1.drop key.length).head? ≠ some ".git".toList then
      paths ++ [joinSep '/' (e.1.drop key.length)]
    else paths) []
  nulTerminated (sortStrings paths)

/-- The reads of the file at `path` when each file comes in one chunk; `none`
when `os.Open` fails or the path is not a regular file. -/
def wholeFileReads (fs : FS) (path : Str) : Option (List ReadStep) :=
  match osOpen fs path with
  | Except.error _ => none
  | Except.ok key =>
    match readAll fs key with
    | Except.error _ => none
    | Except.ok content => some (readsOf [content])

/-- The location of a path of the examples. -/
def keyOf (path : Str) : Key := segments path

/-- A repository with the files `a.txt` and `meta.json` at its root. -/
def metaTree : FS :=
  [ (keyOf "/repo".toList, Node.dir),
    (keyOf "/repo/.git".toList, Node.dir),
    (keyOf "/repo/a.txt".toList, Node.file [104, 105, 10] 420),
    (keyOf "/repo/meta.json".toList, Node.file [123, 125, 10] 420) ]

/-- What `git ls-files` prints for `metaTree`. -/
def metaListing : Str := nulTerminated ["a.txt".toList, "meta.json".toList]

/-- The repository `metaTree` after `push v1`. -/
def metaPushed : FS :=
  [ (keyOf "/repo".toList, Node.dir),
    (keyOf "/repo/.git".toList, Node.dir),
    (keyOf "/repo/a.txt".toList, Node.file [104, 105, 10] 420),
    (keyOf "/repo/meta.json".toList, Node.file [123, 125, 10] 420),
    (keyOf "/repo/.checkpoints".toList, Node.dir),
    (keyOf "/repo/.checkpoints/v1".toList, Node.dir),
    (keyOf "/repo/.checkpoints/v1/a.txt".toList, Node.file [104, 105, 10] 420),
    (keyOf "/repo/.checkpoints/v1/meta.json".toList, Node.file [77] 420) ]

/-- What `git ls-files` prints for `metaPushed`: the files of the checkpoint are
untracked files of the repository. -/
def metaPushedListing : Str :=
  nulTerminated [".checkpoints/v1/a.txt".toList, ".checkpoints/v1/meta.json".toList,
    "a.txt".toList, "meta.json".toList]

/-- The repository `metaPushed` after `pop v1`. -/
def metaPopped : FS :=
  [ (keyOf "/repo".toList, Node.dir),
    (keyOf "/repo/.git".toList, Node.dir),
    (keyOf "/repo/a.txt".toList, Node.file [104, 105, 10] 420),
    (keyOf "/repo/.checkpoints".toList, Node.dir),
    (keyOf "/repo/.checkpoints/v1".toList, Node.dir),
    (keyOf "/repo/.checkpoints/v1/a.txt".toList, Node.file [104, 105, 10] 420),
    (keyOf "/repo/.checkpoints/v1/meta.json".toList, Node.file [77] 420) ]

/-- A repository whose checkpoint `v1` holds the regular file `a`, and in which
`a` has since become a symbolic link to the new file `b`. -/
def linkTree : FS :=
  [ (keyOf "/repo".toList, Node.dir),
    (keyOf "/repo/.git".toList, Node.dir),
    (keyOf "/repo/.checkpoints".toList, Node.dir),
    (keyOf "/repo/.checkpoints/v1".toList, Node.dir),
    (keyOf "/repo/.checkpoints/v1/meta.json".toList, Node.file [77] 420),
    (keyOf "/repo/.checkpoints/v1/a".toList, Node.file [111, 108, 100, 10] 420),
    (keyOf "/repo/a".toList, Node.symlink "b".toList),
    (keyOf "/repo/b".toList, Node.file [110, 101, 119, 10] 420) ]

/-- What `git ls-files` prints for `linkTree`. -/
def linkListing : Str :=
  nulTerminated [".checkpoints/v1/a".toList, ".checkpoints/v1/meta.json".toList,
    "a".toList, "b".toList]

/-- The repository `linkTree` after `pop v1`. -/
def linkPopped : FS :=
  [ (keyOf "/repo".toList, Node.dir),
    (keyOf "/repo/.git".toList, Node.dir),
    (keyOf "/repo/.checkpoints".toList, Node.dir),
    (keyOf "/repo/.checkpoints/v1".toList, Node.dir),
    (keyOf "/repo/.checkpoints/v1/meta.json".toList, Node.file [77] 420),
    (keyOf "/repo/.checkpoints/v1/a".toList, Node.file [111, 108, 100, 10] 420),
    (keyOf "/repo/a".toList, Node.symlink "b".toList),
    (keyOf "/repo/b".toList, Node.file [111, 108, 100, 10] 420) ]

/-- The scenario of the specification: the checkpoint `v1` holds only
`docs/readme.md`, the tree also has `docs/extra/notes.md`. -/
def docsTree : FS :=
  [ (keyOf "/repo".toList, Node.dir),
    (keyOf "/repo/.git".toList, Node.dir),
    (keyOf "/repo/.checkpoints".toList, Node.dir),
    (keyOf "/repo/.checkpoints/v1".toList, Node.dir),
    (keyOf "/repo/.checkpoints/v1/meta.json".toList, Node.file [77] 420),
    (keyOf "/repo/.checkpoints/v1/docs".toList, Node.dir),
    (keyOf "/repo/.checkpoints/v1/docs/readme.md".toList, Node.file [114, 10] 420),
    (keyOf "/repo/docs".toList, Node.dir),
    (keyOf "/repo/docs/readme.md".toList, Node.file [114, 10] 420),
    (keyOf "/repo/docs/extra".toList, Node.dir),
    (keyOf "/repo/docs/extra/notes.md".toList, Node.file [110, 10] 420) ]

/-- What `git ls-files` prints for `docsTree`. -/
def docsListing : Str :=
  nulTerminated [".checkpoints/v1/docs/readme.md".toList, ".checkpoints/v1/meta.json".toList,
    "docs/extra/notes.md".toList, "docs/readme.md".toList]

/-- The repository `docsTree` after `pop v1`. -/
def docsPopped : FS :=
  [ (keyOf "/repo".toList, Node.dir),
    (keyOf "/repo/.git".toList, Node.dir),
    (keyOf "/repo/.checkpoints".toList, Node.dir),
    (keyOf "/repo/.checkpoints/v1".toList, Node.dir),
    (keyOf "/repo/.checkpoints/v1/meta.json".toList, Node.file [77] 420),
    (keyOf "/repo/.checkpoints/v1/docs".toList, Node.dir),
    (keyOf "/repo/.checkpoints/v1/docs/readme.md".toList, Node.file [114, 10] 420),
    (keyOf "/repo/docs".toList, Node.dir),
    (keyOf "/repo/docs/readme.md".toList, Node.file [114, 10] 420) ]

/-- A repository whose checkpoint `v1` holds only `x.txt`, and whose tree also
has `a/b/c.txt`. -/
def nestedTree : FS :=
  [ (keyOf "/repo".toList, Node.dir),
    (keyOf "/repo/.git".toList, Node.dir),
    (keyOf "/repo/.checkpoints".toList, Node.dir),
    (keyOf "/repo/.checkpoints/v1".toList, Node.dir),
    (keyOf "/repo/.checkpoints/v1/meta.json".toList, Node.file [77] 420),
    (keyOf "/repo/.checkpoints/v1/x.txt".toList, Node.file [120, 10] 420),
    (keyOf "/repo/x.txt".toList, Node.file [120, 10] 420),
    (keyOf "/repo/a".toList, Node.dir),
    (keyOf "/repo/a/b".toList, Node.dir),
    (keyOf "/repo/a/b/c.txt".toList, Node.file [99, 10] 420) ]

/-- What `git ls-files` prints for `nestedTree`. -/
def nestedListing : Str :=
  nulTerminated [".checkpoints/v1/meta.json".toList, ".checkpoints/v1/x.txt".toList,
    "a/b/c.txt".toList, "x.txt".toList]

/-- The repository `nestedTree` after `pop v1`. -/
def nestedPopped : FS :=
  [ (keyOf "/repo".toList, Node.dir),
    (keyOf "/repo/.git".toList, Node.dir),
    (keyOf "/repo/.checkpoints".toList, Node.dir),
    (keyOf "/repo/.checkpoints/v1".toList, Node.dir),
    (keyOf "/repo/.checkpoints/v1/meta.json".toList, Node.file [77] 420),
    (keyOf "/repo/.checkpoints/v1/x.txt".toList, Node.file [120, 10] 420),
    (keyOf "/repo/x.txt".toList, Node.file [120, 10] 420),
    (keyOf "/repo/a".toList, Node.dir) ]

/-! ### Notions used to state and prove the properties -/

/-- A stack of kept elements as `filepath.Clean` builds them: no element is
empty, `.` or contains a separator, and `..` occurs only at the bottom of the
stack of a path that is not rooted. -/
def Canon (rooted : Bool) : List Str → Prop
  | [] => True
  | seg :: out =>
    seg ≠ [] ∧ seg ≠ ['.'] ∧ '/' ∉ seg ∧
      (seg = ['.', '.'] → rooted = false ∧ ∀ top ∈ out.head?, top = ['.', '.']) ∧
      Canon rooted out

/-- A single path segment: not empty, not `.` or `..`, without a separator. -/
def IsSegment (name : Str) : Prop :=
  name ≠ [] ∧ name ≠ ['.'] ∧ name ≠ ['.', '.'] ∧ '/' ∉ name

/-- The local variables of `countLines` once the content `c` has been read. -/
def stateAfter (c : List Nat) : LineState :=
  { lines := c.count 10, sawData := !c.isEmpty, lastByte := c.getLast?.getD 0 }


/-- What the first loop of `RemoveEmptyDirs` lets through: a cleaned candidate
that is not `.`, the root, the checkpoint storage area, `.git`, or a path
beneath one of the latter two. -/
def Prunable (candidates : List Str) (d : Str) : Prop :=
  (∃ c ∈ candidates, d = Clean c) ∧ d ≠ ['.'] ∧ d ≠ ['/'] ∧
    d ≠ DirName ∧ ¬ (DirName ++ ['/']) <+: d ∧
    d ≠ ".git".toList ∧ ¬ (".git".toList ++ ['/']) <+: d

/-- The length of `joinSep sep l` plus one, for a list that is not empty. -/
def joinWeight (l : List Str) : Nat := (l.map (fun s => s.length + 1)).sum

/-- The directories above `d`, `d` included, that are not `.` or the root. -/
def IsAncestorFrom (d x : Str) : Prop :=
  ∃ k : Nat, x = Dir^[k] d ∧ x ≠ ['.'] ∧ x ≠ ['/']

/-- The candidate the specification gives a subdirectory of the storage area:
the metadata read from it or, when that cannot be read, its name with its
modification time; none when the modification time cannot be had either. -/
def candidateOf (readMeta : Str → Option Meta) (checkpointsRoot : Str) (e : DirEntry) :
    Option Meta :=
  match readMeta (Join checkpointsRoot e.name) with
  | some m => some m
  | none => e.modTime.map (fun t => { Name := e.name, CreatedAt := t })

/-! ## Lemmas on the path functions -/

theorem splitSep_ne_nil (sep : Char) (s : Str) : splitSep sep s ≠ [] := by
  induction s with
  | nil => simp [splitSep]
  | cons c cs ih =>
    unfold splitSep
    split
    · simp
    · split <;> simp

theorem splitSep_of_not_mem (sep : Char) (s : Str) (h : sep ∉ s) : splitSep sep s = [s] := by
  induction s with
  | nil => rfl
  | cons c cs ih =>
    have hc : c ≠ sep := fun e => h (by simp [e])
    have hcs : sep ∉ cs := fun e => h (by simp [e])
    simp [splitSep, hc, ih hcs]

theorem splitSep_append_sep (sep : Char) (a b : Str) :
    splitSep sep (a ++ sep :: b) = splitSep sep a ++ splitSep sep b := by
  induction a with
  | nil => simp [splitSep]
  | cons c cs ih =>
    by_cases hc : c = sep
    · simp [splitSep, hc, ih]
    · rw [List.cons_append]
      simp only [splitSep, hc, if_false]
      rw [ih]
      cases h : splitSep sep cs with
      | nil => exact absurd h (splitSep_ne_nil sep cs)
      | cons s ss => simp

theorem joinSep_splitSep (sep : Char) (s : Str) : joinSep sep (splitSep sep s) = s := by
  induction s with
  | nil => rfl
  | cons c cs ih =>
    by_cases hc : c = sep
    · simp only [splitSep, hc, if_true]
      cases h : splitSep sep cs with
      | nil => exact absurd h (splitSep_ne_nil sep cs)
      | cons s ss =>
        rw [h] at ih
        simp [joinSep, ih]
    · simp only [splitSep, hc, if_false]
      cases h : splitSep sep cs with
      | nil => exact absurd h (splitSep_ne_nil sep cs)
      | cons s ss =>
        rw [h] at ih
        cases ss with
        | nil => simp [joinSep] at ih ⊢; exact ih
        | cons t rest => simp [joinSep] at ih ⊢; exact ih

theorem not_mem_of_mem_splitSep (sep : Char) (s : Str) :
    ∀ p ∈ splitSep sep s, sep ∉ p := by
  induction s with
  | nil => simp [splitSep]
  | cons c cs ih =>
    by_cases hc : c = sep
    · simp only [splitSep, hc, if_true]
      intro p hp
      rcases List.mem_cons.1 hp with h | h
      · simp [h]
      · exact ih p h
    · simp only [splitSep, hc, if_false]
      cases h : splitSep sep cs with
      | nil => exact absurd h (splitSep_ne_nil sep cs)
      | cons s ss =>
        rw [h] at ih
        intro p hp
        rcases List.mem_cons.1 hp with h1 | h1
        · subst h1
          have := ih s (by simp)
          simp only [List.mem_cons, not_or]
          exact ⟨fun e => hc e.symm, this⟩
        · exact ih p (by simp [h1])

theorem splitSep_joinSep (sep : Char) (l : List Str) (hl : l ≠ [])
    (h : ∀ p ∈ l, sep ∉ p) : splitSep sep (joinSep sep l) = l := by
  induction l with
  | nil => exact absurd rfl hl
  | cons s rest ih =>
    cases rest with
    | nil => simpa [joinSep] using splitSep_of_not_mem sep s (h s (by simp))
    | cons t rest =>
      simp only [joinSep]
      rw [splitSep_append_sep, splitSep_of_not_mem sep s (h s (by simp)),
        ih (by simp) (fun p hp => h p (by simp [hp]))]
      rfl


theorem Clean_eq (path : Str) :
    Clean path = renderPath (isRooted path) (cleanStack path).reverse := by
  unfold Clean
  split
  · next h => subst h; rfl
  · rfl

theorem cleanElem_canon (r : Bool) (out : List Str) (seg : Str)
    (h : Canon r out) (hs : '/' ∉ seg) : Canon r (cleanElem r out seg) := by
  unfold cleanElem
  split
  · exact h
  split
  · exact h
  split
  · next h0 h1 h2 =>
    cases out with
    | nil =>
      cases r <;> simp [Canon, h2]
    | cons top rest =>
      simp only
      by_cases ht : top = ['.', '.']
      · cases r
        · simp only [ht, ne_eq, not_true_eq_false, if_false, Bool.not_false, if_true]
          refine ⟨by simp [h2], by simp [h2], hs, ?_, ?_⟩
          · intro _; simp
          · rw [← ht]; exact h
        · simpa [ht] using h
      · simp only [ne_eq, ht, not_false_eq_true, if_true]
        exact h.2.2.2.2
  · next h0 h1 h2 =>
    exact ⟨h0, h1, hs, fun e => absurd e h2, h⟩

theorem foldl_cleanElem_canon (r : Bool) (segs : List Str) :
    ∀ init, Canon r init → (∀ s ∈ segs, '/' ∉ s) →
      Canon r (segs.foldl (cleanElem r) init) := by
  induction segs with
  | nil => intro init h _; exact h
  | cons s rest ih =>
    intro init h hs
    simp only [List.foldl_cons]
    exact ih _ (cleanElem_canon r init s h (hs s (by simp))) (fun t ht => hs t (by simp [ht]))

theorem cleanStack_canon (path : Str) : Canon (isRooted path) (cleanStack path) :=
  foldl_cleanElem_canon _ _ [] trivial (not_mem_of_mem_splitSep '/' path)

theorem cleanElem_of_canon (r : Bool) (out : List Str) (seg : Str)
    (h : Canon r (seg :: out)) : cleanElem r out seg = seg :: out := by
  obtain ⟨h0, h1, _, h3, _⟩ := h
  unfold cleanElem
  simp only [h0, h1, if_false]
  split
  · next h2 =>
    obtain ⟨hr, htop⟩ := h3 h2
    cases out with
    | nil => simp [hr]
    | cons top rest =>
      have : top = ['.', '.'] := htop top (by simp)
      simp [this, hr]
  · rfl

theorem foldl_cleanElem_reverse (r : Bool) (st : List Str) (h : Canon r st) :
    st.reverse.foldl (cleanElem r) [] = st := by
  induction st with
  | nil => rfl
  | cons seg out ih =>
    rw [List.reverse_cons, List.foldl_append, ih h.2.2.2.2]
    simp only [List.foldl_cons, List.foldl_nil]
    exact cleanElem_of_canon r out seg h

theorem canon_not_mem (r : Bool) (st : List Str) (h : Canon r st) :
    ∀ s ∈ st, '/' ∉ s ∧ s ≠ [] := by
  induction st with
  | nil => simp
  | cons seg out ih =>
    intro s hs
    rcases List.mem_cons.1 hs with e | e
    · subst e; exact ⟨h.2.2.1, h.1⟩
    · exact ih h.2.2.2.2 s e


theorem dropWhile_append_stop {α : Type} (p : α → Bool) (m : List α) (x : α) (B : List α)
    (hm : ∀ c ∈ m, p c = true) (hx : p x = false) :
    (m ++ x :: B).dropWhile p = x :: B := by
  induction m with
  | nil => simp [List.dropWhile, hx]
  | cons c cs ih =>
    simp only [List.cons_append, List.dropWhile, hm c (by simp)]
    exact ih (fun d hd => hm d (by simp [hd]))

theorem rdropWhile_append_sep (A n : Str) (hn : '/' ∉ n) :
    (A ++ '/' :: n).rdropWhile (fun c => c != '/') = A ++ ['/'] := by
  unfold List.rdropWhile
  have : (A ++ '/' :: n).reverse = n.reverse ++ '/' :: A.reverse := by simp
  rw [this, dropWhile_append_stop]
  · simp
  · intro c hc
    have : c ≠ '/' := fun e => hn (by simpa [e] using hc)
    simpa using this
  · simp

theorem rdropWhile_no_sep (n : Str) (hn : '/' ∉ n) :
    n.rdropWhile (fun c => c != '/') = [] := by
  unfold List.rdropWhile
  have : ∀ m : Str, '/' ∉ m → m.dropWhile (fun c => c != '/') = [] := by
    intro m hm
    induction m with
    | nil => rfl
    | cons c cs ih =>
      have hc : c ≠ '/' := fun e => hm (by simp [e])
      rw [List.dropWhile_cons]
      simp only [bne_iff_ne, ne_eq, hc, not_false_eq_true, if_true]
      exact ih (fun e => hm (by simp [e]))
  rw [this _ (by simpa using hn)]
  rfl

theorem isRooted_append (A B : Str) (hA : A ≠ []) : isRooted (A ++ B) = isRooted A := by
  cases A with
  | nil => exact absurd rfl hA
  | cons c cs => rfl

theorem foldl_cleanElem_nil_seg (r : Bool) (init : List Str) :
    cleanElem r init [] = init := by
  simp [cleanElem]

theorem cleanStack_append_sep (A : Str) (hA : A ≠ []) :
    cleanStack (A ++ ['/']) = cleanStack A := by
  unfold cleanStack
  rw [isRooted_append A _ hA, splitSep_append_sep, List.foldl_append]
  simp [splitSep, cleanElem]

theorem Clean_append_sep (A : Str) (hA : A ≠ []) : Clean (A ++ ['/']) = Clean A := by
  rw [Clean_eq, Clean_eq, cleanStack_append_sep A hA, isRooted_append A _ hA]

theorem cleanElem_segment (r : Bool) (out : List Str) (name : Str) (h : IsSegment name) :
    cleanElem r out name = name :: out := by
  simp [cleanElem, h.1, h.2.1, h.2.2.1]

theorem cleanStack_child (S name : Str) (hS : S ≠ []) (h : IsSegment name) :
    cleanStack (S ++ '/' :: name) = name :: cleanStack S := by
  unfold cleanStack
  rw [isRooted_append S _ hS, splitSep_append_sep, List.foldl_append,
    splitSep_of_not_mem '/' name h.2.2.2]
  simp only [List.foldl_cons, List.foldl_nil]
  exact cleanElem_segment _ _ _ h

theorem joinSep_concat (out : List Str) (name : Str) (h : out ≠ []) :
    joinSep '/' (out ++ [name]) = joinSep '/' out ++ '/' :: name := by
  induction out with
  | nil => exact absurd rfl h
  | cons s rest ih =>
    cases rest with
    | nil => simp [joinSep]
    | cons t rest =>
      have := ih (by simp)
      show s ++ '/' :: joinSep '/' (t :: rest ++ [name]) = _
      rw [this]
      simp [joinSep]

theorem isRooted_joinSep (out : List Str) (h : ∀ s ∈ out, '/' ∉ s ∧ s ≠ []) :
    isRooted (joinSep '/' out) = false := by
  cases out with
  | nil => rfl
  | cons s rest =>
    obtain ⟨h1, h2⟩ := h s (by simp)
    cases s with
    | nil => exact absurd rfl h2
    | cons c cs =>
      have hc : c ≠ '/' := fun e => h1 (by simp [e])
      cases rest with
      | nil => simp [joinSep, isRooted, hc]
      | cons t rest => simp [joinSep, isRooted, hc]

theorem joinSep_ne_nil (out : List Str) (h0 : out ≠ []) (h : ∀ s ∈ out, s ≠ []) :
    joinSep '/' out ≠ [] := by
  cases out with
  | nil => exact absurd rfl h0
  | cons s rest =>
    have := h s (by simp)
    cases rest with
    | nil => simpa [joinSep] using this
    | cons t rest => simp [joinSep, this]

theorem cleanStack_joinSep (st : List Str) (h : Canon false st) (h0 : st ≠ []) :
    cleanStack (joinSep '/' st.reverse) = st := by
  have hmem : ∀ s ∈ st.reverse, '/' ∉ s ∧ s ≠ [] := fun s hs =>
    canon_not_mem false st h s (List.mem_reverse.1 hs)
  unfold cleanStack
  rw [isRooted_joinSep _ hmem, splitSep_joinSep '/' _ (by simpa using h0) (fun p hp => (hmem p hp).1)]
  exact foldl_cleanElem_reverse false st h

theorem cleanStack_rooted_joinSep (st : List Str) (h : Canon true st) :
    cleanStack ('/' :: joinSep '/' st.reverse) = st := by
  have hmem : ∀ s ∈ st.reverse, '/' ∉ s ∧ s ≠ [] := fun s hs =>
    canon_not_mem true st h s (List.mem_reverse.1 hs)
  unfold cleanStack
  have hr : isRooted ('/' :: joinSep '/' st.reverse) = true := rfl
  rw [hr]
  by_cases h0 : st = []
  · subst h0; simp [joinSep, splitSep, cleanElem]
  · have : splitSep '/' ('/' :: joinSep '/' st.reverse) = [] :: st.reverse := by
      simp only [splitSep, if_true]
      rw [splitSep_joinSep '/' _ (by simpa using h0) (fun p hp => (hmem p hp).1)]
    rw [this]
    simp only [List.foldl_cons, foldl_cleanElem_nil_seg]
    exact foldl_cleanElem_reverse true st h

theorem Clean_renderPath (r : Bool) (st : List Str) (h : Canon r st) :
    Clean (renderPath r st.reverse) = renderPath r st.reverse := by
  cases r with
  | true =>
    rw [Clean_eq]
    simp only [renderPath, if_true]
    rw [cleanStack_rooted_joinSep st h]
    rfl
  | false =>
    by_cases h0 : st = []
    · subst h0; decide
    · have hne : st.reverse ≠ [] := by simpa using h0
      have hmem : ∀ s ∈ st.reverse, '/' ∉ s ∧ s ≠ [] := fun s hs =>
        canon_not_mem false st h s (List.mem_reverse.1 hs)
      rw [Clean_eq]
      simp only [renderPath, Bool.false_eq_true, if_false, hne]
      rw [cleanStack_joinSep st h h0, isRooted_joinSep _ hmem]
      simp [hne]

theorem Clean_idem (path : Str) : Clean (Clean path) = Clean path := by
  rw [Clean_eq path]
  exact Clean_renderPath _ _ (cleanStack_canon path)

theorem Clean_child (S name : Str) (hS : S ≠ []) (h : IsSegment name) :
    Clean (S ++ '/' :: name) =
      renderPath (isRooted S) ((cleanStack S).reverse ++ [name]) := by
  rw [Clean_eq, cleanStack_child S name hS h, isRooted_append S _ hS]
  simp

theorem Clean_segment (name : Str) (h : IsSegment name) : Clean name = name := by
  rw [Clean_eq]
  have hr : isRooted name = false := by
    obtain ⟨h0, _, _, h3⟩ := h
    cases name with
    | nil => exact absurd rfl h0
    | cons c cs =>
      have hc : c ≠ '/' := fun e => h3 (by simp [e])
      simp [isRooted, hc]
  unfold cleanStack
  rw [hr, splitSep_of_not_mem '/' name h.2.2.2]
  simp [cleanElem_segment _ _ _ h, renderPath, joinSep]

theorem Dir_Join_segment (S name : Str) (h : IsSegment name) :
    Dir (Join S name) = Clean S ∧ name <:+ Join S name := by
  by_cases hS : S = []
  · subst hS
    have : Join [] name = name := by
      simp [Join, h.1, Clean_segment name h]
    rw [this]
    refine ⟨?_, List.suffix_refl _⟩
    unfold Dir
    rw [rdropWhile_no_sep name h.2.2.2]
  · have hJ : Join S name = renderPath (isRooted S) ((cleanStack S).reverse ++ [name]) := by
      simp only [Join, ne_eq, hS, not_false_eq_true, if_true]
      exact Clean_child S name hS h
    rw [hJ]
    have hcanon := cleanStack_canon S
    by_cases h0 : cleanStack S = []
    · cases hr : isRooted S with
      | true =>
        have hc : Clean S = ['/'] := by
          rw [Clean_eq, hr, h0]; rfl
        simp only [h0, List.reverse_nil, List.nil_append, renderPath, if_true, joinSep]
        refine ⟨?_, List.suffix_cons _ _⟩
        unfold Dir
        rw [show ('/' :: name) = [] ++ '/' :: name from rfl, rdropWhile_append_sep _ _ h.2.2.2, hc]
        decide
      | false =>
        have hc : Clean S = ['.'] := by
          rw [Clean_eq, hr, h0]; rfl
        simp only [h0, List.reverse_nil, List.nil_append, renderPath, Bool.false_eq_true,
          if_false, joinSep, List.cons_ne_nil]
        refine ⟨?_, List.suffix_refl _⟩
        unfold Dir
        rw [rdropWhile_no_sep name h.2.2.2, hc]
        decide
    · have hne : (cleanStack S).reverse ≠ [] := by simpa using h0
      have hmem : ∀ s ∈ (cleanStack S).reverse, s ≠ [] := fun s hs =>
        (canon_not_mem _ _ hcanon s (List.mem_reverse.1 hs)).2
      have hrender : renderPath (isRooted S) ((cleanStack S).reverse ++ [name]) =
          Clean S ++ '/' :: name := by
        rw [Clean_eq]
        cases isRooted S <;> simp [renderPath, joinSep_concat _ _ hne, hne]
      have hcne : Clean S ≠ [] := by
        rw [Clean_eq]
        cases isRooted S
        · simpa [renderPath, hne] using joinSep_ne_nil _ hne hmem
        · simp [renderPath]
      rw [hrender]
      refine ⟨?_, ⟨Clean S ++ ['/'], by simp⟩⟩
      unfold Dir
      rw [rdropWhile_append_sep _ _ h.2.2.2, Clean_append_sep _ hcne, Clean_idem]

theorem head_splitSep_iff (X d : Str) (hX : '/' ∉ X) :
    (splitSep '/' d).head? = some X ↔ (d = X ∨ (X ++ ['/']) <+: d) := by
  constructor
  · intro h
    have hj := joinSep_splitSep '/' d
    cases hs : splitSep '/' d with
    | nil => exact absurd hs (splitSep_ne_nil '/' d)
    | cons s ss =>
      rw [hs] at h hj
      simp only [List.head?_cons, Option.some.injEq] at h
      subst h
      cases ss with
      | nil => left; simpa [joinSep] using hj.symm
      | cons t rest =>
        right
        refine ⟨joinSep '/' (t :: rest), ?_⟩
        rw [← hj]
        simp [joinSep]
  · rintro (h | ⟨t, h⟩)
    · rw [h, splitSep_of_not_mem '/' X hX]; rfl
    · rw [← h, List.append_assoc, List.singleton_append, splitSep_append_sep,
        splitSep_of_not_mem '/' X hX]
      rfl


/-! ## Name validation -/

theorem isSegment_of_valid (name : Str) (h : ValidateCheckpointName name = none) :
    IsSegment name := by
  unfold ValidateCheckpointName at h
  split at h
  · simp at h
  split at h
  · simp at h
  split at h
  · simp at h
  · next h0 h1 h2 =>
    simp only [ContainsChar, Bool.or_eq_true, not_or, List.contains_iff_exists_mem_beq, beq_iff_eq, exists_eq_right] at h1
    exact ⟨h0, fun e => h2 (Or.inl e), fun e => h2 (Or.inr e), by simpa using h1.1⟩

/-- C5: `ValidateCheckpointName` returns an error exactly for the empty name, a
name containing `/` or `\`, and the names `.` and `..`; it rejects `""`, `"a/b"`
and `".."` and accepts `"release-1"`.  An accepted name is one non-empty path
segment, and joined onto any path `storage` (in particular onto the storage
area `filepath.Join(root, DirName)` of any root) it gives a path whose directory
is that path and whose last element is the name. -/
theorem validateCheckpointName_spec (name : Str) :
    ((ValidateCheckpointName name).isSome = true ↔
      name = [] ∨ '/' ∈ name ∨ '\\' ∈ name ∨ name = ['.'] ∨ name = ['.', '.']) ∧
    ValidateCheckpointName "".toList = some NameError.empty ∧
    ValidateCheckpointName "a/b".toList = some NameError.separators ∧
    ValidateCheckpointName "..".toList = some NameError.invalid ∧
    ValidateCheckpointName "release-1".toList = none ∧
    (ValidateCheckpointName name = none →
      name ≠ [] ∧ splitSep '/' name = [name] ∧
      (∀ storage : Str,
        Dir (Join storage name) = Clean storage ∧ name <:+ Join storage name) ∧
      (∀ root : Str,
        Dir (Join (Join root DirName) name) = Join root DirName)) := by
  refine ⟨?_, by decide, by decide, by decide, by decide, ?_⟩
  · unfold ValidateCheckpointName
    by_cases h0 : name = []
    · simp [h0]
    by_cases h1 : '/' ∈ name
    · simp [h0, h1, ContainsChar]
    by_cases h2 : '\\' ∈ name
    · simp [h0, h2, ContainsChar]
    by_cases h3 : name = ['.'] ∨ name = ['.', '.']
    · simp [h0, h1, h2, h3, ContainsChar]
    · have h3' := h3
      simp only [not_or] at h3'
      simp [h0, h1, h2, h3, h3'.1, h3'.2, ContainsChar]
  · intro h
    have hseg := isSegment_of_valid name h
    refine ⟨hseg.1, splitSep_of_not_mem '/' name hseg.2.2.2, ?_, ?_⟩
    · intro storage
      exact Dir_Join_segment storage name hseg
    · intro root
      have hclean : Clean (Join root DirName) = Join root DirName := by
        unfold Join
        split
        · exact Clean_idem _
        · split
          · exact Clean_idem _
          · next h => exact absurd (by decide : DirName ≠ []) h
      rw [(Dir_Join_segment (Join root DirName) name hseg).1, hclean]

/-- C5, at the name `v1` and the storage area of the root `/repo`. -/
theorem validateCheckpointName_spec_witness :
    ValidateCheckpointName "v1".toList = none ∧
    Dir (Join (Join "/repo".toList DirName) "v1".toList) = "/repo/.checkpoints".toList :=
  ⟨by decide,
    by
      have h := ((validateCheckpointName_spec "v1".toList).2.2.2.2.2 (by decide)).2.2.2
        "/repo".toList
      rw [h]
      decide⟩

/-! ## Self-exclusion of the file enumeration -/

theorem hasPrefix_iff (s p : Str) : HasPrefix s p = true ↔ p <+: s := by
  unfold HasPrefix
  exact List.isPrefixOf_iff_prefix

theorem isCheckpointPath_iff (rel : Str) :
    IsCheckpointPath rel = true ↔ rel = DirName ∨ (DirName ++ ['/']) <+: rel := by
  unfold IsCheckpointPath
  by_cases h : rel = DirName
  · simp [h]
  · by_cases h2 : HasPrefix rel (DirName ++ ['/']) = true
    · simp [h, h2, (hasPrefix_iff _ _).1 h2]
    · have : ¬ (DirName ++ ['/']) <+: rel := fun e => h2 ((hasPrefix_iff _ _).2 e)
      simp [h, h2, this]

theorem isCheckpointPath_iff_head (rel : Str) :
    IsCheckpointPath rel = true ↔ (splitSep '/' rel).head? = some DirName := by
  rw [isCheckpointPath_iff]
  exact (head_splitSep_iff DirName rel (by decide)).symm

/-- C6: `ListRepoFiles` returns, in their order, exactly the entries between NUL
bytes that are not empty and for which `IsCheckpointPath` is false;
`IsCheckpointPath(rel)` holds exactly when `rel` is `.checkpoints` or starts
with `.checkpoints/`, that is when the first segment of `rel` is `.checkpoints`.
So no returned path is the storage area or lies beneath it, and a path whose
first segment only starts with `.checkpoints`, such as `.checkpoints-old/x`, is
kept. -/
theorem listRepoFiles_spec (output : Str) :
    ListRepoFiles output =
      (splitSep (Char.ofNat 0) output).filter
        (fun entry => decide (entry ≠ [] ∧ ¬ (entry = DirName ∨ (DirName ++ ['/']) <+: entry))) ∧
    (ListRepoFiles output).Sublist (splitSep (Char.ofNat 0) output) ∧
    (∀ rel : Str, IsCheckpointPath rel = true ↔ rel = DirName ∨ (DirName ++ ['/']) <+: rel) ∧
    (∀ rel : Str, IsCheckpointPath rel = true ↔ (splitSep '/' rel).head? = some DirName) ∧
    (∀ rel ∈ ListRepoFiles output,
      rel ≠ [] ∧ rel ≠ DirName ∧ ¬ (DirName ++ ['/']) <+: rel ∧
        (splitSep '/' rel).head? ≠ some DirName) ∧
    IsCheckpointPath ".checkpoints-old/x".toList = false ∧
    ListRepoFiles
        ("a.txt".toList ++ Char.ofNat 0 :: ".checkpoints/v1/a.txt".toList ++
          Char.ofNat 0 :: ".checkpoints-old/x".toList ++ Char.ofNat 0 :: ".checkpoints".toList ++
          Char.ofNat 0 :: "src/b.txt".toList ++ [Char.ofNat 0]) =
      ["a.txt".toList, ".checkpoints-old/x".toList, "src/b.txt".toList] := by
  refine ⟨?_, ?_, isCheckpointPath_iff, isCheckpointPath_iff_head, ?_, by decide, by decide⟩
  · unfold ListRepoFiles
    apply List.filter_congr
    intro entry _
    by_cases h0 : entry = []
    · simp [h0]
    · by_cases h1 : IsCheckpointPath entry = true
      · have := (isCheckpointPath_iff entry).1 h1
        simp [h0, h1, this]
      · have := mt (isCheckpointPath_iff entry).2 h1
        simp [h0, h1, this]
  · exact List.filter_sublist _
  · intro rel hrel
    unfold ListRepoFiles at hrel
    rw [List.mem_filter] at hrel
    obtain ⟨_, hp⟩ := hrel
    simp only [Bool.and_eq_true, Bool.not_eq_true', beq_eq_false_iff_ne, ne_eq] at hp
    have hn : ¬ IsCheckpointPath rel = true := by simp [hp.2]
    have h1 := mt (isCheckpointPath_iff rel).2 hn
    have h2 := mt (isCheckpointPath_iff_head rel).2 hn
    simp only [not_or] at h1
    exact ⟨hp.1, h1.1, h1.2, h2⟩

/-! ## Line counting -/

theorem scanBytes_stateAfter (d c : List Nat) (saw : Bool) :
    scanBytes d { lines := c.count 10, sawData := saw, lastByte := c.getLast?.getD 0 } =
      { lines := (c ++ d).count 10, sawData := saw, lastByte := (c ++ d).getLast?.getD 0 } := by
  induction d generalizing c with
  | nil => simp [scanBytes]
  | cons b bs ih =>
    have h := ih (c ++ [b])
    simp only [List.append_assoc, List.singleton_append] at h
    rw [← h]
    unfold scanBytes
    simp only [List.foldl_cons]
    congr 1
    by_cases hb : b = 10
    · simp [hb, List.count_append]
    · simp [hb, List.count_append, List.count_cons]

theorem step_stateAfter (d c : List Nat) :
    (if d.length > 0 then scanBytes d { stateAfter c with sawData := true } else stateAfter c) =
      stateAfter (c ++ d) := by
  cases d with
  | nil => simp
  | cons b bs =>
    simp only [List.length_cons, gt_iff_lt, Nat.zero_lt_succ, if_true, stateAfter]
    rw [scanBytes_stateAfter]
    simp

theorem finishLines_stateAfter (c : List Nat) : finishLines (stateAfter c) = specLineCount c := by
  unfold finishLines stateAfter specLineCount
  rcases List.eq_nil_or_concat c with h | ⟨l, b, h⟩
  · subst h; simp
  · subst h
    by_cases hb : b = 10
    · simp [hb]
    · simp [hb]

theorem countLoop_readsOf (chunks : List (List Nat)) (last c : List Nat) :
    countLoop (readsOfEager chunks last) (stateAfter c) =
      some (specLineCount (c ++ chunks.flatten ++ last)) := by
  induction chunks generalizing c with
  | nil =>
    simp only [readsOfEager, List.map_nil, List.nil_append, countLoop, List.flatten_nil,
      List.append_nil]
    rw [step_stateAfter, finishLines_stateAfter]
  | cons d rest ih =>
    simp only [readsOfEager, List.map_cons, List.cons_append, countLoop, List.flatten_cons]
    rw [step_stateAfter]
    have := ih (c ++ d)
    simp only [readsOfEager, List.append_assoc] at this ⊢
    exact this

theorem statsLoop_eq (openFile : Str → Option (List ReadStep)) (dir : Str) (files : List Str)
    (stats : Stats) :
    statsLoop openFile dir files stats =
      if files.all (fun rel => (countLines (openFile (Join dir rel))).isSome) then
        some { stats with LineCount := stats.LineCount +
          (files.map (fun rel => (countLines (openFile (Join dir rel))).getD 0)).sum }
      else none := by
  induction files generalizing stats with
  | nil => simp [statsLoop]
  | cons rel rest ih =>
    simp only [statsLoop, List.all_cons, List.map_cons, List.sum_cons]
    cases h : countLines (openFile (Join dir rel)) with
    | none => simp
    | some count =>
      simp only [ih, Option.isSome_some, Bool.true_and, Option.getD_some, Nat.add_assoc]

/-- C9: whatever the chunks in which the reads deliver the content of a file
(the end of file reported by a read of its own or together with the last
chunk), `countLines` returns the number of newline bytes of the content, plus
one if the content is not empty and does not end in a newline; the empty file
counts 0 and `a\nb` counts 2.  `CheckpointStats` returns the number of files of
the checkpoint as `FileCount` and the sum of their `countLines` as `LineCount`,
and fails when the listing or one count fails. -/
theorem countLines_spec :
    (∀ chunks : List (List Nat),
      countLines (some (readsOf chunks)) = some (specLineCount chunks.flatten)) ∧
    (∀ (chunks : List (List Nat)) (last : List Nat),
      countLines (some (readsOfEager chunks last)) =
        some (specLineCount (chunks.flatten ++ last))) ∧
    countLines (some (readsOf [])) = some 0 ∧
    countLines (some (readsOf [[97, 10, 98]])) = some 2 ∧
    countLines (some (readsOf [[97], [10], [], [98]])) = some 2 ∧
    CheckpointStats (fun dir => (ListCheckpointFiles metaPushed dir).toOption)
      (wholeFileReads metaPushed) "/repo/.checkpoints/v1".toList =
      some { FileCount := 1, LineCount := 1 } ∧
    (∀ (listFiles : Str → Option (List Str)) (openFile : Str → Option (List ReadStep))
        (checkpointDir : Str),
      CheckpointStats listFiles openFile checkpointDir =
        (listFiles checkpointDir).bind (fun files =>
          if files.all (fun rel => (countLines (openFile (Join checkpointDir rel))).isSome) then
            some { FileCount := files.length,
                   LineCount := (files.map (fun rel =>
                     (countLines (openFile (Join checkpointDir rel))).getD 0)).sum }
          else none)) := by
  have key : ∀ (chunks : List (List Nat)) (last : List Nat),
      countLines (some (readsOfEager chunks last)) =
        some (specLineCount (chunks.flatten ++ last)) := by
    intro chunks last
    have := countLoop_readsOf chunks last []
    simpa [countLines, countReads, stateAfter] using this
  refine ⟨?_, key, by decide, by decide, by decide, by rfl, ?_⟩
  · intro chunks
    have := key chunks []
    simpa [readsOf, readsOfEager] using this
  · intro listFiles openFile dir
    unfold CheckpointStats
    cases listFiles dir with
    | none => rfl
    | some files =>
      simp only [Option.some_bind, statsLoop_eq, Nat.zero_add]

/-! ## The latest checkpoint -/

theorem newestFirst_newestSort : NewestFirst newestSort := by
  intro l
  refine ⟨List.perm_insertionSort _ l, ?_⟩
  have hs : (newestSort l).Sorted (fun a b : Meta => b.CreatedAt ≤ a.CreatedAt) := by
    haveI : IsTotal Meta (fun a b : Meta => b.CreatedAt ≤ a.CreatedAt) :=
      ⟨fun a b => le_total b.CreatedAt a.CreatedAt⟩
    haveI : IsTrans Meta (fun a b : Meta => b.CreatedAt ≤ a.CreatedAt) :=
      ⟨fun a b c hab hbc => le_trans hbc hab⟩
    exact List.sorted_insertionSort _ l
  refine List.Pairwise.imp ?_ hs
  intro a b hab
  simp only [createdAfter, decide_eq_true_eq, not_lt]
  exact hab

theorem collectCandidates_nil_of_no_dir (readMeta : Str → Option Meta) (root : Str)
    (es : List DirEntry) (h : ∀ e ∈ es, e.isDir = false) :
    collectCandidates readMeta root es = [] := by
  induction es with
  | nil => rfl
  | cons e rest ih =>
    simp only [collectCandidates, h e (by simp), Bool.not_false, if_true]
    exact ih (fun e he => h e (by simp [he]))

theorem mem_collectCandidates (readMeta : Str → Option Meta) (root : Str)
    (es : List DirEntry) (c : Meta) :
    c ∈ collectCandidates readMeta root es ↔
      ∃ e ∈ es, e.isDir = true ∧
        (readMeta (Join root e.name) = some c ∨
          (readMeta (Join root e.name) = none ∧ ∃ t, e.modTime = some t ∧
            c = { Name := e.name, CreatedAt := t })) := by
  induction es with
  | nil => simp [collectCandidates]
  | cons e rest ih =>
    have hsplit : ∀ P : DirEntry → Prop, (∃ x ∈ e :: rest, P x) ↔ (P e ∨ ∃ x ∈ rest, P x) := by
      intro P; simp
    rw [hsplit, ← ih]
    have hcons : collectCandidates readMeta root (e :: rest) =
        if !e.isDir then collectCandidates readMeta root rest
        else
          match readMeta (Join root e.name) with
          | none =>
            match e.modTime with
            | none => collectCandidates readMeta root rest
            | some t =>
              { Name := e.name, CreatedAt := t } :: collectCandidates readMeta root rest
          | some m => m :: collectCandidates readMeta root rest := rfl
    rw [hcons]
    cases hd : e.isDir with
    | false => simp
    | true =>
      simp only [Bool.not_true, Bool.false_eq_true, if_false, true_and]
      cases hm : readMeta (Join root e.name) with
      | none =>
        cases ht : e.modTime with
        | none => simp
        | some t => simp
      | some m =>
        simp only [List.mem_cons, Option.some.injEq, false_and, or_false, reduceCtorEq]
        constructor
        · rintro (h | h)
          · exact Or.inl h.symm
          · exact Or.inr h
        · rintro (h | h)
          · exact Or.inl h.symm
          · exact Or.inr h

theorem mem_collectCandidates_iff (readMeta : Str → Option Meta) (root : Str)
    (es : List DirEntry) (c : Meta) :
    c ∈ collectCandidates readMeta root es ↔
      ∃ e ∈ es, e.isDir = true ∧ candidateOf readMeta root e = some c := by
  rw [mem_collectCandidates]
  constructor
  · rintro ⟨e, he, hd, h⟩
    refine ⟨e, he, hd, ?_⟩
    unfold candidateOf
    rcases h with h | ⟨h, t, ht, hc⟩
    · rw [h]
    · rw [h, ht, hc]; rfl
  · rintro ⟨e, he, hd, h⟩
    refine ⟨e, he, hd, ?_⟩
    unfold candidateOf at h
    cases hm : readMeta (Join root e.name) with
    | some m =>
      rw [hm] at h
      exact Or.inl h
    | none =>
      rw [hm] at h
      cases ht : e.modTime with
      | none => rw [ht] at h; cases h
      | some t =>
        rw [ht] at h
        simp only [Option.map_some', Option.some.injEq] at h
        exact Or.inr ⟨rfl, t, rfl, h.symm⟩

/-- C8: whatever rearrangement `sort.Slice` makes among the ones it may make,
`LatestCheckpointName` fails with "no checkpoints found" when the storage area
does not exist, when it has no subdirectory, and when no subdirectory has a
candidate (the metadata read from the subdirectory or, when that cannot be
read, the name of the subdirectory with its modification time).  As soon as one
subdirectory has a candidate it returns the name of the candidate of a
subdirectory such that the candidate of no subdirectory of the storage area was
created after it.  With two subdirectories whose candidates were created at
`t1 < t2`, listed in either order among entries that are not directories, it
returns the name of the one created at `t2`. -/
theorem latestCheckpointName_spec (sortSlice : List Meta → List Meta)
    (hsort : NewestFirst sortSlice) (readMeta : Str → Option Meta) (checkpointsRoot : Str) :
    LatestCheckpointName sortSlice ReadDirResult.notExist readMeta checkpointsRoot =
      Except.error LatestError.noCheckpoints ∧
    (∀ es : List DirEntry, (∀ e ∈ es, e.isDir = false) →
      LatestCheckpointName sortSlice (ReadDirResult.entries es) readMeta checkpointsRoot =
        Except.error LatestError.noCheckpoints) ∧
    (∀ es : List DirEntry,
      (∀ e ∈ es, e.isDir = true → candidateOf readMeta checkpointsRoot e = none) →
      LatestCheckpointName sortSlice (ReadDirResult.entries es) readMeta checkpointsRoot =
        Except.error LatestError.noCheckpoints) ∧
    (∀ (es : List DirEntry) (e0 : DirEntry), e0 ∈ es → e0.isDir = true →
      (candidateOf readMeta checkpointsRoot e0).isSome = true →
      ∃ e ∈ es, e.isDir = true ∧ ∃ c, candidateOf readMeta checkpointsRoot e = some c ∧
        LatestCheckpointName sortSlice (ReadDirResult.entries es) readMeta checkpointsRoot =
          Except.ok c.Name ∧
        ∀ e' ∈ es, e'.isDir = true →
          ∀ c', candidateOf readMeta checkpointsRoot e' = some c' →
            ¬ c.CreatedAt < c'.CreatedAt) ∧
    (∀ (es : List DirEntry) (e1 e2 : DirEntry) (c1 c2 : Meta),
      (es.filter (fun e => e.isDir) = [e1, e2] ∨ es.filter (fun e => e.isDir) = [e2, e1]) →
      candidateOf readMeta checkpointsRoot e1 = some c1 →
      candidateOf readMeta checkpointsRoot e2 = some c2 →
      c1.CreatedAt < c2.CreatedAt →
      LatestCheckpointName sortSlice (ReadDirResult.entries es) readMeta checkpointsRoot =
        Except.ok c2.Name) := by
  have main : ∀ es : List DirEntry, collectCandidates readMeta checkpointsRoot es ≠ [] →
      ∃ c ∈ collectCandidates readMeta checkpointsRoot es,
        LatestCheckpointName sortSlice (ReadDirResult.entries es) readMeta checkpointsRoot =
          Except.ok c.Name ∧
        (∀ c' ∈ collectCandidates readMeta checkpointsRoot es, ¬ c.CreatedAt < c'.CreatedAt) := by
    intro es hne
    obtain ⟨hperm, hpair⟩ := hsort (collectCandidates readMeta checkpointsRoot es)
    have hlen : ¬ (collectCandidates readMeta checkpointsRoot es).length = 0 := by
      simpa [List.length_eq_zero] using hne
    cases hs : sortSlice (collectCandidates readMeta checkpointsRoot es) with
    | nil =>
      rw [hs] at hperm
      exact absurd (List.Perm.nil_eq hperm).symm hne
    | cons first rest =>
      rw [hs] at hperm hpair
      refine ⟨first, hperm.subset (by simp), ?_, ?_⟩
      · simp only [LatestCheckpointName, hlen, if_false, hs]
      · intro c' hc'
        have hc'' : c' ∈ first :: rest := hperm.symm.subset hc'
        rcases List.mem_cons.1 hc'' with e | e
        · subst e; exact lt_irrefl _
        · have := (List.pairwise_cons.1 hpair).1 c' e
          simpa [createdAfter] using this
  have general : ∀ (es : List DirEntry) (e0 : DirEntry), e0 ∈ es → e0.isDir = true →
      (candidateOf readMeta checkpointsRoot e0).isSome = true →
      ∃ e ∈ es, e.isDir = true ∧ ∃ c, candidateOf readMeta checkpointsRoot e = some c ∧
        LatestCheckpointName sortSlice (ReadDirResult.entries es) readMeta checkpointsRoot =
          Except.ok c.Name ∧
        ∀ e' ∈ es, e'.isDir = true →
          ∀ c', candidateOf readMeta checkpointsRoot e' = some c' →
            ¬ c.CreatedAt < c'.CreatedAt := by
    intro es e0 he0 hd0 hc0
    obtain ⟨c0, hc0'⟩ := Option.isSome_iff_exists.1 hc0
    have hne : collectCandidates readMeta checkpointsRoot es ≠ [] := by
      intro e
      have := (mem_collectCandidates_iff readMeta checkpointsRoot es c0).2 ⟨e0, he0, hd0, hc0'⟩
      rw [e] at this
      simp at this
    obtain ⟨c, hc, hres, hmax⟩ := main es hne
    obtain ⟨e, he, hd, hce⟩ := (mem_collectCandidates_iff readMeta checkpointsRoot es c).1 hc
    refine ⟨e, he, hd, c, hce, hres, ?_⟩
    intro e' he' hd' c' hc'
    exact hmax c' ((mem_collectCandidates_iff readMeta checkpointsRoot es c').2 ⟨e', he', hd', hc'⟩)
  have empty : ∀ es : List DirEntry,
      (∀ e ∈ es, e.isDir = true → candidateOf readMeta checkpointsRoot e = none) →
      LatestCheckpointName sortSlice (ReadDirResult.entries es) readMeta checkpointsRoot =
        Except.error LatestError.noCheckpoints := by
    intro es hes
    have hnil : collectCandidates readMeta checkpointsRoot es = [] := by
      apply List.eq_nil_iff_forall_not_mem.2
      intro c hc
      obtain ⟨e, he, hd, hce⟩ := (mem_collectCandidates_iff readMeta checkpointsRoot es c).1 hc
      rw [hes e he hd] at hce
      cases hce
    simp [LatestCheckpointName, hnil]
  refine ⟨rfl, ?_, empty, general, ?_⟩
  · intro es hes
    apply empty
    intro e he hd
    rw [hes e he] at hd
    cases hd
  · intro es e1 e2 c1 c2 hdirs h1 h2 hlt
    have hmemdir : ∀ e, (e ∈ es ∧ e.isDir = true) ↔ (e = e1 ∨ e = e2) := by
      intro e
      have : (e ∈ es ∧ e.isDir = true) ↔ e ∈ es.filter (fun e => e.isDir) := by
        rw [List.mem_filter]
      rw [this]
      rcases hdirs with h | h
      · rw [h]; simp
      · rw [h]; simp; tauto
    have he2 := (hmemdir e2).2 (Or.inr rfl)
    obtain ⟨e, he, hd, c, hce, hres, hmax⟩ :=
      general es e2 he2.1 he2.2 (by rw [h2]; rfl)
    rcases (hmemdir e).1 ⟨he, hd⟩ with h | h
    · subst h
      rw [h1] at hce
      cases hce
      exact absurd hlt (hmax e2 he2.1 he2.2 c2 h2)
    · subst h
      rw [h2] at hce
      cases hce
      exact hres

/-- C8, with insertion sort for `sort.Slice`, at a storage area that lists a
plain file, the checkpoint `v2` with metadata created at 200 and the checkpoint
`v1` with metadata created at 100: the result is `v2`.  With `v1` and a
subdirectory `v3` without readable metadata, modified at 300, it is `v3`. -/
theorem latestCheckpointName_spec_witness :
    NewestFirst newestSort ∧
    LatestCheckpointName newestSort
        (ReadDirResult.entries
          [{ name := "notes.txt".toList, isDir := false, modTime := some 900 },
           { name := "v2".toList, isDir := true, modTime := some 8 },
           { name := "v1".toList, isDir := true, modTime := some 7 }])
        (fun dir =>
          if dir = "/repo/.checkpoints/v1".toList then
            some { Name := "v1".toList, CreatedAt := 100 }
          else if dir = "/repo/.checkpoints/v2".toList then
            some { Name := "v2".toList, CreatedAt := 200 }
          else none)
        "/repo/.checkpoints".toList = Except.ok "v2".toList ∧
    LatestCheckpointName newestSort
        (ReadDirResult.entries
          [{ name := "v1".toList, isDir := true, modTime := some 7 },
           { name := "v3".toList, isDir := true, modTime := some 300 }])
        (fun dir =>
          if dir = "/repo/.checkpoints/v1".toList then
            some { Name := "v1".toList, CreatedAt := 100 }
          else none)
        "/repo/.checkpoints".toList = Except.ok "v3".toList :=
  ⟨newestFirst_newestSort,
    (latestCheckpointName_spec newestSort newestFirst_newestSort _ _).2.2.2.2 _
      { name := "v1".toList, isDir := true, modTime := some 7 }
      { name := "v2".toList, isDir := true, modTime := some 8 }
      { Name := "v1".toList, CreatedAt := 100 } { Name := "v2".toList, CreatedAt := 200 }
      (Or.inr (by decide)) (by decide) (by decide) (by decide),
    (latestCheckpointName_spec newestSort newestFirst_newestSort _ _).2.2.2.2 _
      { name := "v1".toList, isDir := true, modTime := some 7 }
      { name := "v3".toList, isDir := true, modTime := some 300 }
      { Name := "v1".toList, CreatedAt := 100 } { Name := "v3".toList, CreatedAt := 300 }
      (Or.inl (by decide)) (by decide) (by decide) (by decide)⟩

/-! ## Pruning -/

theorem insertKey_nodup (d : Str) (keys : List Str) (h : keys.Nodup) :
    (insertKey d keys).Nodup := by
  unfold insertKey
  split
  · exact h
  · next hm =>
    rw [List.nodup_append]
    refine ⟨h, List.nodup_singleton d, ?_⟩
    intro a ha hb
    rw [List.mem_singleton] at hb
    exact hm (hb ▸ ha)

theorem mem_insertKey (d x : Str) (keys : List Str) :
    x ∈ insertKey d keys ↔ x ∈ keys ∨ x = d := by
  unfold insertKey
  split
  · next hm =>
    constructor
    · exact Or.inl
    · rintro (h | h)
      · exact h
      · exact h ▸ hm
  · simp

theorem uniqueDirs_fold (candidates : List Str) :
    ∀ init : List Str, init.Nodup →
      (candidates.foldl uniqueStep init).Nodup ∧
      ∀ d, d ∈ candidates.foldl uniqueStep init ↔ (d ∈ init ∨ Prunable candidates d) := by
  induction candidates with
  | nil =>
    intro init h
    refine ⟨h, fun d => ?_⟩
    simp [Prunable]
  | cons c rest ih =>
    intro init h
    simp only [List.foldl_cons]
    have hP : ∀ d, Prunable (c :: rest) d ↔
        ((d = Clean c ∧ d ≠ ['.'] ∧ d ≠ ['/'] ∧ d ≠ DirName ∧ ¬ (DirName ++ ['/']) <+: d ∧
          d ≠ ".git".toList ∧ ¬ (".git".toList ++ ['/']) <+: d) ∨ Prunable rest d) := by
      intro d
      unfold Prunable
      constructor
      · rintro ⟨⟨c', hc', e⟩, h1⟩
        rcases List.mem_cons.1 hc' with e' | e'
        · subst e'; exact Or.inl ⟨e, h1⟩
        · exact Or.inr ⟨⟨c', e', e⟩, h1⟩
      · rintro (⟨e, h1⟩ | ⟨⟨c', hc', e⟩, h1⟩)
        · exact ⟨⟨c, by simp, e⟩, h1⟩
        · exact ⟨⟨c', by simp [hc'], e⟩, h1⟩
    by_cases h1 : Clean c = ['.'] ∨ Clean c = ['/']
    · have hstep : uniqueStep init c = init := by simp [uniqueStep, h1]
      rw [hstep]
      obtain ⟨hn, hm⟩ := ih init h
      refine ⟨hn, fun d => ?_⟩
      rw [hm d, hP d]
      constructor
      · rintro (h | h)
        · exact Or.inl h
        · exact Or.inr (Or.inr h)
      · rintro (h | ⟨e, hd1, hd2, _⟩ | h)
        · exact Or.inl h
        · rcases h1 with h1 | h1
          · exact absurd (e.trans h1) hd1
          · exact absurd (e.trans h1) hd2
        · exact Or.inr h
    · by_cases h2 : (IsCheckpointPath (Clean c) || Clean c == ".git".toList ||
          HasPrefix (Clean c) (".git".toList ++ ['/'])) = true
      · have hstep : uniqueStep init c = init := by
          unfold uniqueStep
          simp only [h1, if_false, h2, if_true]
        rw [hstep]
        obtain ⟨hn, hm⟩ := ih init h
        refine ⟨hn, fun d => ?_⟩
        rw [hm d, hP d]
        constructor
        · rintro (h | h)
          · exact Or.inl h
          · exact Or.inr (Or.inr h)
        · rintro (h | ⟨e, _, _, hd3, hd4, hd5, hd6⟩ | h)
          · exact Or.inl h
          · exfalso
            simp only [Bool.or_eq_true, beq_iff_eq] at h2
            rcases h2 with (h2 | h2) | h2
            · rcases (isCheckpointPath_iff _).1 h2 with h3 | h3
              · exact hd3 (e.trans h3)
              · exact hd4 (e ▸ h3)
            · exact hd5 (e.trans h2)
            · exact hd6 (e ▸ (hasPrefix_iff _ _).1 h2)
          · exact Or.inr h
      · have hstep : uniqueStep init c = insertKey (Clean c) init := by
          unfold uniqueStep
          simp only [h1, if_false, h2, Bool.false_eq_true]
        rw [hstep]
        obtain ⟨hn, hm⟩ := ih (insertKey (Clean c) init) (insertKey_nodup _ _ h)
        refine ⟨hn, fun d => ?_⟩
        rw [hm d, hP d, mem_insertKey]
        simp only [Bool.or_eq_true, beq_iff_eq, not_or] at h2
        simp only [not_or] at h1
        have hc1 : ¬ (Clean c = DirName ∨ (DirName ++ ['/']) <+: Clean c) :=
          fun e => h2.1.1 ((isCheckpointPath_iff _).2 e)
        simp only [not_or] at hc1
        have hc2 : ¬ (".git".toList ++ ['/']) <+: Clean c :=
          fun e => h2.2 ((hasPrefix_iff _ _).2 e)
        constructor
        · rintro ((h | h) | h)
          · exact Or.inl h
          · subst h
            exact Or.inr (Or.inl ⟨rfl, h1.1, h1.2, hc1.1, hc1.2, h2.1.2, hc2⟩)
          · exact Or.inr (Or.inr h)
        · rintro (h | ⟨e, _⟩ | h)
          · exact Or.inl (Or.inl h)
          · exact Or.inl (Or.inr e)
          · exact Or.inr h

theorem uniqueDirs_nodup (candidates : List Str) : (uniqueDirs candidates).Nodup :=
  (uniqueDirs_fold candidates [] List.nodup_nil).1

theorem mem_uniqueDirs (candidates : List Str) (d : Str) :
    d ∈ uniqueDirs candidates ↔ Prunable candidates d := by
  have := (uniqueDirs_fold candidates [] List.nodup_nil).2 d
  simpa [uniqueDirs] using this

theorem removeLoop_sublist {σ ε : Type} (view : ErrView ε) (osRemove : σ → Str → Except ε σ)
    (root : Str) (required : List Str) (sorted : List Str) :
    ∀ st : σ, (removeLoop view osRemove root required sorted st).1.Sublist
      (sorted.filter (fun d => decide (d ∉ required))) := by
  induction sorted with
  | nil => intro st; simp [removeLoop]
  | cons dir rest ih =>
    intro st
    unfold removeLoop
    by_cases hreq : dir ∈ required
    · simp only [hreq, if_true, not_true_eq_false, decide_False, Bool.false_eq_true,
        not_false_eq_true, List.filter_cons_of_neg]
      exact ih st
    · simp only [hreq, if_false, not_false_eq_true, decide_True, List.filter_cons_of_pos]
      cases osRemove st (Join root dir) with
      | ok st' =>
        simp only
        exact List.Sublist.cons₂ _ (ih st')
      | error e =>
        simp only
        split
        · exact List.Sublist.cons₂ _ (ih st)
        · exact List.Sublist.cons₂ _ (List.nil_sublist _)

theorem removeAttempts_sublist {σ ε : Type} (view : ErrView ε)
    (osRemove : σ → Str → Except ε σ) (order : List Str → List Str) (st : σ) (root : Str)
    (candidates : List Str) (required : List Str) :
    (removeAttempts view osRemove order st root candidates required).Sublist
      ((order (uniqueDirs candidates)).filter (fun d => decide (d ∉ required))) :=
  removeLoop_sublist view osRemove root required _ st

theorem canon_no_dotdot (st : List Str) (h : Canon false st)
    (hlast : st.getLast? ≠ some ['.', '.']) : ∀ s ∈ st, s ≠ ['.', '.'] := by
  induction st with
  | nil => simp
  | cons seg out ih =>
    obtain ⟨_, _, _, h3, h4⟩ := h
    cases out with
    | nil =>
      intro s hs
      rw [List.mem_singleton] at hs
      subst hs
      simpa using hlast
    | cons top rest =>
      have hlast' : (top :: rest).getLast? ≠ some ['.', '.'] := by
        simpa [List.getLast?_cons_cons] using hlast
      have hout := ih h4 hlast'
      intro s hs
      rcases List.mem_cons.1 hs with e | e
      · subst e
        intro e2
        have := (h3 e2).2 top (by simp)
        exact hout top (by simp) this
      · exact hout s e

theorem foldl_cleanElem_segments (r : Bool) (segs : List Str) (h : ∀ s ∈ segs, IsSegment s) :
    ∀ init : List Str, segs.foldl (cleanElem r) init = segs.reverse ++ init := by
  induction segs with
  | nil => intro init; rfl
  | cons s rest ih =>
    intro init
    simp only [List.foldl_cons, cleanElem_segment r init s (h s (by simp)),
      ih (fun t ht => h t (by simp [ht])), List.reverse_cons, List.append_assoc,
      List.singleton_append]

theorem joinSep_append (A B : List Str) (hA : A ≠ []) (hB : B ≠ []) :
    joinSep '/' (A ++ B) = joinSep '/' A ++ '/' :: joinSep '/' B := by
  induction A with
  | nil => exact absurd rfl hA
  | cons s rest ih =>
    cases rest with
    | nil =>
      cases B with
      | nil => exact absurd rfl hB
      | cons b bs => simp [joinSep]
    | cons t rest =>
      have := ih (by simp)
      show s ++ '/' :: joinSep '/' (t :: rest ++ B) = _
      rw [this]
      simp [joinSep]

/-- The segments of a cleaned path that is relative and does not start with
`..`, and the path `filepath.Join` makes of it under a root. -/
theorem Join_clean_relative (root c : Str) (hroot : root ≠ [])
    (hrel : isRooted (Clean c) = false) (hdot : Clean c ≠ ['.'])
    (hup : (splitSep '/' (Clean c)).head? ≠ some ['.', '.']) :
    (∀ s ∈ splitSep '/' (Clean c), IsSegment s) ∧
    (Join root (Clean c) = Clean root ++ '/' :: Clean c ∨
      (Clean root = ['/'] ∧ Join root (Clean c) = '/' :: Clean c) ∨
      (Clean root = ['.'] ∧ Join root (Clean c) = Clean c)) := by
  have hcanon := cleanStack_canon c
  have hrc : isRooted c = false := by
    cases h : isRooted c with
    | false => rfl
    | true =>
      rw [Clean_eq, h] at hrel
      simp [renderPath, isRooted] at hrel
  rw [hrc] at hcanon
  have hne : (cleanStack c).reverse ≠ [] := by
    intro e
    apply hdot
    rw [Clean_eq, hrc, e]
    rfl
  have hd : Clean c = joinSep '/' (cleanStack c).reverse := by
    rw [Clean_eq, hrc]
    simp [renderPath, hne]
  have hmem : ∀ s ∈ (cleanStack c).reverse, '/' ∉ s ∧ s ≠ [] := fun s hs =>
    canon_not_mem false _ hcanon s (List.mem_reverse.1 hs)
  have hsplit : splitSep '/' (Clean c) = (cleanStack c).reverse := by
    rw [hd]
    exact splitSep_joinSep '/' _ hne (fun p hp => (hmem p hp).1)
  have hlast : (cleanStack c).getLast? ≠ some ['.', '.'] := by
    rw [hsplit, List.head?_reverse] at hup
    exact hup
  have hnodd := canon_no_dotdot _ hcanon hlast
  have hseg : ∀ s ∈ (cleanStack c).reverse, IsSegment s := by
    intro s hs
    have hs' := List.mem_reverse.1 hs
    have hcs : ∀ st : List Str, Canon false st → ∀ t ∈ st, t ≠ ['.'] := by
      intro st hst
      induction st with
      | nil => simp
      | cons a rest ih =>
        intro t ht
        rcases List.mem_cons.1 ht with e | e
        · subst e; exact hst.2.1
        · exact ih hst.2.2.2.2 t e
    exact ⟨(hmem s hs).2, hcs _ hcanon s hs', hnodd s hs', (hmem s hs).1⟩
  refine ⟨by rw [hsplit]; exact hseg, ?_⟩
  have hstack : cleanStack (root ++ '/' :: Clean c) =
      ((cleanStack c).reverse).reverse ++ cleanStack root := by
    unfold cleanStack
    rw [isRooted_append root _ hroot, splitSep_append_sep, List.foldl_append, hsplit]
    exact foldl_cleanElem_segments _ _ hseg _
  have hJ : Join root (Clean c) =
      renderPath (isRooted root) ((cleanStack root).reverse ++ (cleanStack c).reverse) := by
    simp only [Join, ne_eq, hroot, not_false_eq_true, if_true]
    rw [Clean_eq, hstack, isRooted_append root _ hroot]
    simp
  rw [hJ, hd]
  by_cases h0 : (cleanStack root).reverse = []
  · cases hr : isRooted root with
    | true =>
      right; left
      refine ⟨by rw [Clean_eq, hr, h0]; rfl, ?_⟩
      simp [renderPath, h0]
    | false =>
      right; right
      refine ⟨by rw [Clean_eq, hr, h0]; rfl, ?_⟩
      simp [renderPath, h0, hne]
  · left
    rw [Clean_eq]
    cases isRooted root <;> simp [renderPath, h0, hne, joinSep_append _ _ h0 hne]

/-- C4: whatever the file system, the order of the map and of `sort.Slice`, the
root, the candidates and the required set, every directory that
`RemoveEmptyDirs` calls `os.Remove` on is a cleaned candidate, is not in the
required set, is not `.` or the root `/`, is not `.checkpoints` or `.git`, and
does not begin with `.checkpoints/` or `.git/`.  When such a directory is
relative and does not start with `..` (as is every parent of a listed file), it
consists of plain segments, the first of which is not `.checkpoints` or `.git`,
and the path given to `os.Remove` is the cleaned root, a separator and the
directory. -/
theorem removeEmptyDirs_protected {σ ε : Type} (view : ErrView ε)
    (osRemove : σ → Str → Except ε σ) (order : List Str → List Str)
    (horder : DepthOrder order) (st : σ) (root : Str) (candidates : List Str)
    (required : List Str) :
    ∀ d ∈ removeAttempts view osRemove order st root candidates required,
      (∃ c ∈ candidates, d = Clean c) ∧ d ∉ required ∧ d ≠ ".".toList ∧ d ≠ "/".toList ∧
        d ≠ ".checkpoints".toList ∧ ¬ ".checkpoints/".toList <+: d ∧
        d ≠ ".git".toList ∧ ¬ ".git/".toList <+: d ∧
        (isRooted d = false → (splitSep '/' d).head? ≠ some "..".toList → root ≠ [] →
          (∀ s ∈ splitSep '/' d, IsSegment s) ∧
          (splitSep '/' d).head? ≠ some ".checkpoints".toList ∧
          (splitSep '/' d).head? ≠ some ".git".toList ∧
          (Join root d = Clean root ++ '/' :: d ∨
            (Clean root = "/".toList ∧ Join root d = '/' :: d) ∨
            (Clean root = ".".toList ∧ Join root d = d))) := by
  intro d hd
  have h1 := (removeAttempts_sublist view osRemove order st root candidates required).subset hd
  rw [List.mem_filter] at h1
  obtain ⟨hmem, hreq⟩ := h1
  have hmem' : d ∈ uniqueDirs candidates := (horder _).1.subset hmem
  obtain ⟨hc, h2, h3, h4, h5, h6, h7⟩ := (mem_uniqueDirs candidates d).1 hmem'
  refine ⟨hc, by simpa using hreq, h2, h3, h4, h5, h6, h7, ?_⟩
  intro hrel hup hroot
  obtain ⟨c, _, hdc⟩ := hc
  subst hdc
  obtain ⟨hseg, hjoin⟩ := Join_clean_relative root c hroot hrel h2 hup
  refine ⟨hseg, ?_, ?_, hjoin⟩
  · intro e
    rcases (head_splitSep_iff ".checkpoints".toList (Clean c) (by decide)).1 e with e1 | e1
    · exact h4 e1
    · exact h5 e1
  · intro e
    rcases (head_splitSep_iff ".git".toList (Clean c) (by decide)).1 e with e1 | e1
    · exact h6 e1
    · exact h7 e1

theorem depthOrder_depthSort : DepthOrder depthSort := by
  intro l
  refine ⟨List.perm_insertionSort _ l, ?_⟩
  haveI : IsTotal Str (fun a b : Str => depth b ≤ depth a) :=
    ⟨fun a b => le_total (depth b) (depth a)⟩
  haveI : IsTrans Str (fun a b : Str => depth b ≤ depth a) :=
    ⟨fun a b c hab hbc => le_trans hbc hab⟩
  exact List.sorted_insertionSort _ l

theorem depth_lt_of_properAncestor (a d : Str) (h : IsProperAncestor a d) :
    depth a < depth d := by
  obtain ⟨t, ht⟩ := h
  rw [← ht]
  simp only [depth, countChar, List.count_append, List.count_singleton_self]
  omega

/-- C10: whatever the file system, the order of the map and of `sort.Slice`, and
the order and duplication of the candidates, `RemoveEmptyDirs` calls `os.Remove`
on no directory twice and never on a directory after a shallower one (depth is
the number of separators); so of two directories it attempts, one a proper
ancestor of the other, the descendant is attempted first. -/
theorem removeEmptyDirs_deepest_first {σ ε : Type} (view : ErrView ε)
    (osRemove : σ → Str → Except ε σ) (order : List Str → List Str)
    (horder : DepthOrder order) (st : σ) (root : Str) (candidates : List Str)
    (required : List Str) :
    (removeAttempts view osRemove order st root candidates required).Nodup ∧
    (removeAttempts view osRemove order st root candidates required).Pairwise
      (fun a b => depth b ≤ depth a) ∧
    (∀ a d : Str,
      a ∈ removeAttempts view osRemove order st root candidates required →
      d ∈ removeAttempts view osRemove order st root candidates required →
      IsProperAncestor a d →
      ∃ l1 l2 l3 : List Str,
        removeAttempts view osRemove order st root candidates required =
          l1 ++ d :: l2 ++ a :: l3) := by
  have hsub := removeAttempts_sublist view osRemove order st root candidates required
  have hsub' : (removeAttempts view osRemove order st root candidates required).Sublist
      (order (uniqueDirs candidates)) := hsub.trans (List.filter_sublist _)
  have hnodup : (removeAttempts view osRemove order st root candidates required).Nodup :=
    List.Nodup.sublist hsub'
      (((horder (uniqueDirs candidates)).1.nodup_iff).2 (uniqueDirs_nodup candidates))
  have hpair : (removeAttempts view osRemove order st root candidates required).Pairwise
      (fun a b => depth b ≤ depth a) :=
    List.Pairwise.sublist hsub' (horder (uniqueDirs candidates)).2
  refine ⟨hnodup, hpair, ?_⟩
  intro a d ha hd hanc
  have hlt := depth_lt_of_properAncestor a d hanc
  have hne : a ≠ d := fun e => by rw [e] at hlt; exact absurd hlt (lt_irrefl _)
  obtain ⟨l1, rest, hsplit⟩ := List.append_of_mem hd
  rw [hsplit] at ha hpair
  rcases List.mem_append.1 ha with h | h
  · have := (List.pairwise_append.1 hpair).2.2 a h d (by simp)
    omega
  · rcases List.mem_cons.1 h with e | e
    · exact absurd e hne
    · obtain ⟨l2, l3, hrest⟩ := List.append_of_mem e
      refine ⟨l1, l2, l3, ?_⟩
      rw [hsplit, hrest]
      simp

/-! ## The required directories -/

theorem joinSep_length (sep : Char) (l : List Str) (h : l ≠ []) :
    (joinSep sep l).length + 1 = joinWeight l := by
  induction l with
  | nil => exact absurd rfl h
  | cons s rest ih =>
    cases rest with
    | nil => simp [joinSep, joinWeight]
    | cons t rest =>
      have := ih (by simp)
      simp only [joinSep, joinWeight, List.length_append, List.length_cons, List.map_cons,
        List.sum_cons] at this ⊢
      omega

theorem joinWeight_sublist (l₁ l₂ : List Str) (h : l₁.Sublist l₂) :
    joinWeight l₁ ≤ joinWeight l₂ := by
  unfold joinWeight
  exact List.Sublist.sum_le_sum (h.map _) (fun a _ => Nat.zero_le a)

theorem cleanElem_sublist (r : Bool) (out : List Str) (seg : Str) :
    (cleanElem r out seg).reverse.Sublist (out.reverse ++ [seg]) := by
  unfold cleanElem
  split
  · exact List.sublist_append_left _ _
  split
  · exact List.sublist_append_left _ _
  split
  · cases out with
    | nil =>
      cases r <;> simp
    | cons top rest =>
      simp only
      split
      · simp only [List.reverse_cons, List.append_assoc]
        exact List.sublist_append_left _ _
      · split
        · simp
        · exact List.sublist_append_left _ _
  · simp

theorem foldl_cleanElem_sublist (r : Bool) (segs : List Str) :
    ∀ init : List Str,
      (segs.foldl (cleanElem r) init).reverse.Sublist (init.reverse ++ segs) := by
  induction segs with
  | nil => intro init; simp
  | cons s rest ih =>
    intro init
    simp only [List.foldl_cons]
    have h1 := ih (cleanElem r init s)
    have h2 := (cleanElem_sublist r init s).append_right rest
    have h3 := h1.trans h2
    simpa using h3

theorem Clean_length_le (a : Str) (ha : a ≠ []) : (Clean a).length ≤ a.length := by
  rw [Clean_eq]
  have hlen : 1 ≤ a.length := by
    cases a with
    | nil => exact absurd rfl ha
    | cons c cs => simp
  cases hr : isRooted a with
  | false =>
    have hsub : (cleanStack a).reverse.Sublist (splitSep '/' a) := by
      have := foldl_cleanElem_sublist false (splitSep '/' a) []
      simpa [cleanStack, hr] using this
    by_cases h0 : (cleanStack a).reverse = []
    · simp [renderPath, h0]; exact hlen
    · simp only [renderPath, Bool.false_eq_true, if_false, h0]
      have h1 := joinSep_length '/' _ h0
      have h2 := joinSep_length '/' _ (splitSep_ne_nil '/' a)
      rw [joinSep_splitSep] at h2
      have h3 := joinWeight_sublist _ _ hsub
      omega
  | true =>
    cases a with
    | nil => exact absurd rfl ha
    | cons c cs =>
      have hc : c = '/' := by simpa [isRooted] using hr
      subst hc
      have hsub : (cleanStack ('/' :: cs)).reverse.Sublist (splitSep '/' cs) := by
        have := foldl_cleanElem_sublist true (splitSep '/' cs) []
        simpa [cleanStack, hr, splitSep, cleanElem] using this
      by_cases h0 : (cleanStack ('/' :: cs)).reverse = []
      · simp [renderPath, h0, joinSep]
      · simp only [renderPath, if_true, List.length_cons]
        have h1 := joinSep_length '/' _ h0
        have h2 := joinSep_length '/' _ (splitSep_ne_nil '/' cs)
        rw [joinSep_splitSep] at h2
        have h3 := joinWeight_sublist _ _ hsub
        omega

theorem Dir_shrinks (d : Str) :
    Dir d = ['.'] ∨ Dir d = ['/'] ∨ (Dir d).length < d.length := by
  unfold Dir
  have hpre : (d.rdropWhile (fun c => c != '/')).length ≤ d.length :=
    (List.rdropWhile_prefix (fun c => c != '/') d).length_le
  by_cases hp : d.rdropWhile (fun c => c != '/') = []
  · left; rw [hp]; rfl
  · have hlast := List.rdropWhile_last_not (fun c => c != '/') d hp
    simp only [bne_iff_ne, ne_eq, Decidable.not_not] at hlast
    have hsplit := List.dropLast_append_getLast hp
    rw [hlast] at hsplit
    by_cases ha : (d.rdropWhile (fun c => c != '/')).dropLast = []
    · right; left
      rw [← hsplit, ha]
      rfl
    · right; right
      rw [← hsplit, Clean_append_sep _ ha]
      have h1 := Clean_length_le _ ha
      have h2 : ((d.rdropWhile (fun c => c != '/')).dropLast ++ ['/']).length ≤ d.length := by
        rw [hsplit]; exact hpre
      simp only [List.length_append, List.length_singleton] at h2
      omega

theorem iterate_Dir_dot (k : Nat) : Dir^[k] ['.'] = ['.'] := by
  induction k with
  | zero => rfl
  | succ n ih => rw [Function.iterate_succ_apply]; exact ih

theorem iterate_Dir_root (k : Nat) : Dir^[k] ['/'] = ['/'] := by
  induction k with
  | zero => rfl
  | succ n ih => rw [Function.iterate_succ_apply]; exact ih

theorem iterate_Dir_fixed (d : Str) (h : Dir d = d) (k : Nat) : Dir^[k] d = d := by
  induction k with
  | zero => rfl
  | succ n ih => rw [Function.iterate_succ_apply, h]; exact ih

theorem requiredWalk_spec (fuel : Nat) :
    ∀ (d : Str) (required : List Str), required.Nodup →
      (d.length + 2 ≤ fuel ∨ ((d = ['.'] ∨ d = ['/']) ∧ 1 ≤ fuel)) →
      ∃ res, requiredWalk fuel d required = some res ∧ res.Nodup ∧
        ∀ x, x ∈ res ↔ (x ∈ required ∨ IsAncestorFrom d x) := by
  induction fuel with
  | zero =>
    intro d required _ h
    rcases h with h | h <;> omega
  | succ n ih =>
    intro d required hnd hfuel
    unfold requiredWalk
    by_cases hstop : d = ['.'] ∨ d = ['/']
    · refine ⟨required, by simp [hstop], hnd, fun x => ?_⟩
      constructor
      · exact Or.inl
      · rintro (h | ⟨k, hk, h1, h2⟩)
        · exact h
        · rcases hstop with e | e
          · rw [e, iterate_Dir_dot] at hk; exact absurd hk h1
          · rw [e, iterate_Dir_root] at hk; exact absurd hk h2
    · have hd := hstop
      simp only [not_or] at hd
      simp only [hstop, if_false]
      by_cases hfix : Dir d = d
      · refine ⟨insertKey d required, by simp [hfix], insertKey_nodup _ _ hnd, fun x => ?_⟩
        rw [mem_insertKey]
        constructor
        · rintro (h | h)
          · exact Or.inl h
          · exact Or.inr ⟨0, h, h ▸ hd.1, h ▸ hd.2⟩
        · rintro (h | ⟨k, hk, _⟩)
          · exact Or.inl h
          · rw [iterate_Dir_fixed d hfix] at hk; exact Or.inr hk
      · simp only [hfix, if_false]
        have hfuel' : (Dir d).length + 2 ≤ n ∨ ((Dir d = ['.'] ∨ Dir d = ['/']) ∧ 1 ≤ n) := by
          have hn : d.length + 2 ≤ n + 1 := by
            rcases hfuel with h | h
            · exact h
            · exact absurd h.1 hstop
          rcases Dir_shrinks d with h | h | h
          · exact Or.inr ⟨Or.inl h, by omega⟩
          · exact Or.inr ⟨Or.inr h, by omega⟩
          · exact Or.inl (by omega)
        obtain ⟨res, hres, hnd', hmem⟩ :=
          ih (Dir d) (insertKey d required) (insertKey_nodup _ _ hnd) hfuel'
        refine ⟨res, hres, hnd', fun x => ?_⟩
        rw [hmem, mem_insertKey]
        constructor
        · rintro ((h | h) | ⟨k, hk, h1, h2⟩)
          · exact Or.inl h
          · exact Or.inr ⟨0, h, h ▸ hd.1, h ▸ hd.2⟩
          · exact Or.inr ⟨k + 1, by rw [Function.iterate_succ_apply]; exact hk, h1, h2⟩
        · rintro (h | ⟨k, hk, h1, h2⟩)
          · exact Or.inl (Or.inl h)
          · cases k with
            | zero => exact Or.inl (Or.inr hk)
            | succ m =>
              rw [Function.iterate_succ_apply] at hk
              exact Or.inr ⟨m, hk, h1, h2⟩

theorem requiredDirs_fold (files : List Str) :
    ∀ init : List Str, init.Nodup →
      ∃ res,
        files.foldlM (fun required rel => requiredWalk (rel.length + 2) (Dir rel) required)
          init = some res ∧ res.Nodup ∧
        ∀ x, x ∈ res ↔ (x ∈ init ∨ ∃ rel ∈ files, IsAncestorFrom (Dir rel) x) := by
  induction files with
  | nil =>
    intro init h
    exact ⟨init, rfl, h, fun x => by simp⟩
  | cons rel rest ih =>
    intro init h
    have hfuel : (Dir rel).length + 2 ≤ rel.length + 2 ∨
        ((Dir rel = ['.'] ∨ Dir rel = ['/']) ∧ 1 ≤ rel.length + 2) := by
      rcases Dir_shrinks rel with h | h | h
      · exact Or.inr ⟨Or.inl h, by omega⟩
      · exact Or.inr ⟨Or.inr h, by omega⟩
      · exact Or.inl (by omega)
    obtain ⟨r1, hr1, hnd1, hm1⟩ := requiredWalk_spec _ (Dir rel) init h hfuel
    obtain ⟨res, hres, hnd, hm⟩ := ih r1 hnd1
    refine ⟨res, ?_, hnd, fun x => ?_⟩
    · simp only [List.foldlM_cons, hr1, Option.bind_eq_bind, Option.some_bind]
      exact hres
    · rw [hm, hm1]
      constructor
      · rintro ((h | h) | ⟨r, hr, h⟩)
        · exact Or.inl h
        · exact Or.inr ⟨rel, by simp, h⟩
        · exact Or.inr ⟨r, by simp [hr], h⟩
      · rintro (h | ⟨r, hr, h⟩)
        · exact Or.inl (Or.inl h)
        · rcases List.mem_cons.1 hr with e | e
          · subst e; exact Or.inl (Or.inr h)
          · exact Or.inr ⟨r, e, h⟩

theorem canon_of_segments (segs : List Str) (h : ∀ s ∈ segs, IsSegment s) :
    Canon false segs := by
  induction segs with
  | nil => trivial
  | cons s rest ih =>
    obtain ⟨h0, h1, h2, h3⟩ := h s (by simp)
    exact ⟨h0, h1, h3, fun e => absurd e h2, ih (fun t ht => h t (by simp [ht]))⟩

theorem Clean_joinSep_segments (segs : List Str) (h0 : segs ≠ [])
    (h : ∀ s ∈ segs, IsSegment s) : Clean (joinSep '/' segs) = joinSep '/' segs := by
  have hc : Canon false segs.reverse :=
    canon_of_segments _ (fun s hs => h s (List.mem_reverse.1 hs))
  have := Clean_renderPath false segs.reverse hc
  simpa [renderPath, h0] using this

theorem Dir_segment (name : Str) (h : '/' ∉ name) : Dir name = ['.'] := by
  unfold Dir
  rw [rdropWhile_no_sep name h]
  rfl

theorem Dir_joinSep_concat (l : List Str) (a : Str) (h0 : l ≠ [])
    (hl : ∀ s ∈ l, IsSegment s) (ha : IsSegment a) :
    Dir (joinSep '/' (l ++ [a])) = joinSep '/' l := by
  unfold Dir
  rw [joinSep_concat l a h0, rdropWhile_append_sep _ _ ha.2.2.2,
    Clean_append_sep _ (joinSep_ne_nil l h0 (fun s hs => (hl s hs).1)),
    Clean_joinSep_segments l h0 hl]

theorem joinSep_segments_ne (l : List Str) (h0 : l ≠ []) (hl : ∀ s ∈ l, IsSegment s) :
    joinSep '/' l ≠ ['.'] ∧ joinSep '/' l ≠ ['/'] := by
  have hs := splitSep_joinSep '/' l h0 (fun p hp => (hl p hp).2.2.2)
  constructor
  · intro e
    rw [e] at hs
    have h1 : ['.'] ∈ l := by rw [← hs]; decide
    exact (hl _ h1).2.1 rfl
  · intro e
    rw [e] at hs
    have h1 : ([] : Str) ∈ l := by rw [← hs]; decide
    exact (hl _ h1).1 rfl

theorem isAncestorFrom_iff (y x : Str) :
    IsAncestorFrom y x ↔ ((x = y ∧ y ≠ ['.'] ∧ y ≠ ['/']) ∨ IsAncestorFrom (Dir y) x) := by
  constructor
  · rintro ⟨k, hk, h1, h2⟩
    cases k with
    | zero =>
      have e : x = y := hk
      exact Or.inl ⟨e, e ▸ h1, e ▸ h2⟩
    | succ m =>
      rw [Function.iterate_succ_apply] at hk
      exact Or.inr ⟨m, hk, h1, h2⟩
  · rintro (⟨e, h1, h2⟩ | ⟨k, hk, h1, h2⟩)
    · exact ⟨0, e, e ▸ h1, e ▸ h2⟩
    · exact ⟨k + 1, by rw [Function.iterate_succ_apply]; exact hk, h1, h2⟩

theorem isAncestorFrom_dot (x : Str) : ¬ IsAncestorFrom ['.'] x := by
  rintro ⟨k, hk, h1, _⟩
  rw [iterate_Dir_dot] at hk
  exact h1 hk

theorem ancestors_of_segments (segs : List Str) (hs : ∀ s ∈ segs, IsSegment s) (x : Str) :
    IsAncestorFrom (Dir (joinSep '/' segs)) x ↔
      ∃ j, 0 < j ∧ j < segs.length ∧ x = joinSep '/' (segs.take j) := by
  induction segs using List.reverseRecOn with
  | nil =>
    have : Dir (joinSep '/' []) = ['.'] := by decide
    rw [this]
    constructor
    · intro h; exact absurd h (isAncestorFrom_dot x)
    · rintro ⟨j, h1, h2, _⟩; simp at h2
  | append_singleton l a ih =>
    have hl : ∀ s ∈ l, IsSegment s := fun s h => hs s (by simp [h])
    have ha : IsSegment a := hs a (by simp)
    by_cases h0 : l = []
    · subst h0
      have : Dir (joinSep '/' ([] ++ [a])) = ['.'] := by
        simpa [joinSep] using Dir_segment a ha.2.2.2
      rw [this]
      constructor
      · intro h; exact absurd h (isAncestorFrom_dot x)
      · rintro ⟨j, h1, h2, _⟩
        simp at h2
        omega
    · rw [Dir_joinSep_concat l a h0 hl ha, isAncestorFrom_iff, ih hl]
      have hne := joinSep_segments_ne l h0 hl
      constructor
      · rintro (⟨e, _⟩ | ⟨j, h1, h2, e⟩)
        · refine ⟨l.length, List.length_pos.2 h0, by simp, ?_⟩
          rw [e, List.take_left']
          rfl
        · refine ⟨j, h1, by simp; omega, ?_⟩
          rw [e, List.take_append_of_le_length (le_of_lt h2)]
      · rintro ⟨j, h1, h2, e⟩
        simp only [List.length_append, List.length_singleton] at h2
        by_cases hj : j = l.length
        · left
          refine ⟨?_, hne⟩
          rw [e, hj, List.take_left']
          rfl
        · right
          refine ⟨j, h1, by omega, ?_⟩
          rw [e, List.take_append_of_le_length (by omega)]

/-- C7: `RequiredDirs` terminates on every list of paths (each walk ends within
the fuel, two more iterations than the path has characters) and the keys of the
map it returns, each listed once, are exactly the directories reached from a
listed path by one or more steps of `filepath.Dir`, with `.` and the root
excluded.  For a path made of segments `s1/.../sn` these are exactly the
prefixes `s1/.../sj` with `0 < j < n`: the parent and every intermediate level.
A path without a separator contributes nothing. -/
theorem requiredDirs_spec (files : List Str) :
    (∃ required, RequiredDirs files = some required ∧ required.Nodup ∧
      ∀ d, d ∈ required ↔
        ∃ rel ∈ files, ∃ k, 0 < k ∧ d = Dir^[k] rel ∧ d ≠ ".".toList ∧ d ≠ "/".toList) ∧
    (∀ (segs : List Str) (d : Str), (∀ s ∈ segs, IsSegment s) →
      ((∃ k, 0 < k ∧ d = Dir^[k] (joinSep '/' segs) ∧ d ≠ ".".toList ∧ d ≠ "/".toList) ↔
        ∃ j, 0 < j ∧ j < segs.length ∧ d = joinSep '/' (segs.take j))) ∧
    (∀ rel : Str, '/' ∉ rel → RequiredDirs [rel] = some []) ∧
    RequiredDirs ["a/b/c.txt".toList, "a/d.txt".toList, "e.txt".toList, "x/y".toList] =
      some ["a/b".toList, "a".toList, "x".toList] := by
  have hshift : ∀ (rel d : Str),
      (∃ k, 0 < k ∧ d = Dir^[k] rel ∧ d ≠ ".".toList ∧ d ≠ "/".toList) ↔
        IsAncestorFrom (Dir rel) d := by
    intro rel d
    constructor
    · rintro ⟨k, hk, e, h1, h2⟩
      cases k with
      | zero => omega
      | succ m =>
        rw [Function.iterate_succ_apply] at e
        exact ⟨m, e, h1, h2⟩
    · rintro ⟨k, e, h1, h2⟩
      exact ⟨k + 1, by omega, by rw [Function.iterate_succ_apply]; exact e, h1, h2⟩
  refine ⟨?_, ?_, ?_, by decide⟩
  · obtain ⟨res, hres, hnd, hm⟩ := requiredDirs_fold files [] List.nodup_nil
    refine ⟨res, hres, hnd, fun d => ?_⟩
    rw [hm]
    simp only [List.not_mem_nil, false_or]
    constructor
    · rintro ⟨rel, hrel, h⟩
      exact ⟨rel, hrel, (hshift rel d).2 h⟩
    · rintro ⟨rel, hrel, h⟩
      exact ⟨rel, hrel, (hshift rel d).1 h⟩
  · intro segs d hs
    rw [hshift]
    exact ancestors_of_segments segs hs d
  · intro rel hrel
    obtain ⟨res, hres, _, hm⟩ := requiredDirs_fold [rel] [] List.nodup_nil
    have hempty : res = [] := by
      apply List.eq_nil_iff_forall_not_mem.2
      intro x hx
      rcases (hm x).1 hx with h | ⟨r, hr, h⟩
      · simp at h
      · rw [List.mem_singleton] at hr
        subst hr
        rw [Dir_segment r hrel] at h
        exact isAncestorFrom_dot x h
    rw [hempty] at hres
    exact hres

/-- C7, at the path `docs/extra/notes.md`: its required directories are `docs`
and `docs/extra`. -/
theorem requiredDirs_spec_witness :
    (∀ s ∈ ["docs".toList, "extra".toList, "notes.md".toList], IsSegment s) ∧
    ((∃ k, 0 < k ∧ "docs/extra".toList =
        Dir^[k] (joinSep '/' ["docs".toList, "extra".toList, "notes.md".toList]) ∧
        "docs/extra".toList ≠ ".".toList ∧ "docs/extra".toList ≠ "/".toList) ↔
      ∃ j, 0 < j ∧ j < ["docs".toList, "extra".toList, "notes.md".toList].length ∧
        "docs/extra".toList =
          joinSep '/' (["docs".toList, "extra".toList, "notes.md".toList].take j)) :=
  ⟨by
      intro s hs
      simp only [List.mem_cons, List.mem_singleton, List.not_mem_nil, or_false] at hs
      rcases hs with e | e | e <;> subst e <;> exact ⟨by decide, by decide, by decide, by decide⟩,
    (requiredDirs_spec []).2.1 _ _ (by
      intro s hs
      simp only [List.mem_cons, List.mem_singleton, List.not_mem_nil, or_false] at hs
      rcases hs with e | e | e <;> subst e <;> exact ⟨by decide, by decide, by decide, by decide⟩)⟩

/-! ## Push and pop on concrete repositories -/

/-- C1, at a repository with a file `meta.json` at its root: `push v1` copies
`a.txt` and `meta.json` into the checkpoint and then writes the metadata over the
copy of `meta.json`; `pop v1`, with nothing changed in between, does not find
`meta.json` among the files of the checkpoint, removes it from the tree and does
not restore it.  The file `a.txt` comes back as it was. -/
theorem roundTrip_root_meta_json :
    runPush metaTree "/repo".toList "v1".toList false (some metaListing) [77] =
      Except.ok metaPushed ∧
    runPop depthSort metaPushed "/repo".toList "v1".toList (Except.ok "v1".toList) true
      (some metaPushedListing) = Except.ok metaPopped ∧
    metaListing = gitLsFiles metaTree "/repo".toList ∧
    metaPushedListing = gitLsFiles metaPushed "/repo".toList ∧
    ListRepoFiles metaListing = ["a.txt".toList, "meta.json".toList] ∧
    ListRepoFiles metaPushedListing = ["a.txt".toList, "meta.json".toList] ∧
    ListCheckpointFiles metaPushed "/repo/.checkpoints/v1".toList = Except.ok ["a.txt".toList] ∧
    nodeAt metaTree (keyOf "/repo/meta.json".toList) = some (Node.file [123, 125, 10] 420) ∧
    nodeAt metaPushed (keyOf "/repo/.checkpoints/v1/meta.json".toList) =
      some (Node.file [77] 420) ∧
    nodeAt metaPopped (keyOf "/repo/meta.json".toList) = none ∧
    nodeAt metaPopped (keyOf "/repo/a.txt".toList) =
      nodeAt metaTree (keyOf "/repo/a.txt".toList) := by
  refine ⟨by rfl, by rfl, by rfl, by rfl, by rfl, by rfl, by rfl, by rfl, by rfl, by rfl,
    by rfl⟩

/-- C2, at a repository whose checkpoint holds the regular file `a` while the
tree has `a` as a symbolic link to the file `b`: `pop v1` removes `b`, which is
not in the checkpoint, and then restores `a` by opening `/repo/a` for writing,
which follows the link and creates `b` again, with the content of the
checkpoint's `a`.  The path `b` of the tree, absent from the checkpoint, is
there after the restore. -/
theorem pop_recreates_deleted_path :
    runPop depthSort linkTree "/repo".toList "v1".toList (Except.ok "v1".toList) true
      (some linkListing) = Except.ok linkPopped ∧
    linkListing = gitLsFiles linkTree "/repo".toList ∧
    ListCheckpointFiles linkTree "/repo/.checkpoints/v1".toList = Except.ok ["a".toList] ∧
    ListRepoFiles linkListing = ["a".toList, "b".toList] ∧
    deleteLoop "/repo".toList ["a".toList] ["a".toList, "b".toList] linkTree [] =
      Except.ok (eraseNode linkTree (keyOf "/repo/b".toList), [".".toList]) ∧
    nodeAt (eraseNode linkTree (keyOf "/repo/b".toList)) (keyOf "/repo/b".toList) = none ∧
    nodeAt linkPopped (keyOf "/repo/b".toList) = some (Node.file [111, 108, 100, 10] 420) ∧
    nodeAt linkPopped (keyOf "/repo/a".toList) = some (Node.symlink "b".toList) := by
  refine ⟨by rfl, by rfl, by rfl, by rfl, by rfl, by rfl, by rfl, by rfl⟩

/-- C3, on two repositories.  In the scenario of the specification (checkpoint
with `docs/readme.md` only, tree with `docs/extra/notes.md` as well) `pop v1`
removes `docs/extra` and keeps `docs`.  With a checkpoint holding only `x.txt`
and a tree that also has `a/b/c.txt`, `pop v1` removes `a/b/c.txt` and `a/b`,
and the directory `a`, not required and now empty, is still there: only the
parents of the removed files are candidates for pruning. -/
theorem pop_leaves_emptied_ancestor :
    runPop depthSort docsTree "/repo".toList "v1".toList (Except.ok "v1".toList) true
      (some docsListing) = Except.ok docsPopped ∧
    docsListing = gitLsFiles docsTree "/repo".toList ∧
    nestedListing = gitLsFiles nestedTree "/repo".toList ∧
    nodeAt docsPopped (keyOf "/repo/docs/extra".toList) = none ∧
    nodeAt docsPopped (keyOf "/repo/docs".toList) = some Node.dir ∧
    runPop depthSort nestedTree "/repo".toList "v1".toList (Except.ok "v1".toList) true
      (some nestedListing) = Except.ok nestedPopped ∧
    ListCheckpointFiles nestedTree "/repo/.checkpoints/v1".toList = Except.ok ["x.txt".toList] ∧
    RequiredDirs ["x.txt".toList] = some [] ∧
    removeAttempts errnoView osRemove depthSort
      (eraseNode nestedTree (keyOf "/repo/a/b/c.txt".toList)) "/repo".toList ["a/b".toList] [] =
      ["a/b".toList] ∧
    hasChild nestedTree (keyOf "/repo/a".toList) = true ∧
    nodeAt nestedPopped (keyOf "/repo/a/b".toList) = none ∧
    nodeAt nestedPopped (keyOf "/repo/a".toList) = some Node.dir ∧
    hasChild nestedPopped (keyOf "/repo/a".toList) = false := by
  refine ⟨by rfl, by rfl, by rfl, by rfl, by rfl, by rfl, by rfl, by rfl, by rfl, by rfl, by rfl,
    by rfl, by rfl⟩

/-- C4, with insertion sort for `sort.Slice`, on the tree of the scenario of the
specification: `docs/extra` is attempted, it is none of the protected
directories, and the path given to `os.Remove` is `/repo/docs/extra`. -/
theorem removeEmptyDirs_protected_witness :
    DepthOrder depthSort ∧
    "docs/extra".toList ∈ removeAttempts errnoView osRemove depthSort docsTree "/repo".toList
      ["docs/extra".toList, ".git/hooks".toList, ".".toList, ".checkpoints/v1".toList,
        "docs".toList] ["docs".toList] ∧
    isRooted "docs/extra".toList = false ∧
    (splitSep '/' "docs/extra".toList).head? ≠ some "..".toList ∧
    "/repo".toList ≠ [] ∧
    (∃ c ∈ ["docs/extra".toList, ".git/hooks".toList, ".".toList, ".checkpoints/v1".toList,
        "docs".toList], "docs/extra".toList = Clean c) ∧
    "docs/extra".toList ∉ ["docs".toList] ∧
    (Join "/repo".toList "docs/extra".toList =
        Clean "/repo".toList ++ '/' :: "docs/extra".toList ∨
      (Clean "/repo".toList = "/".toList ∧
        Join "/repo".toList "docs/extra".toList = '/' :: "docs/extra".toList) ∨
      (Clean "/repo".toList = ".".toList ∧
        Join "/repo".toList "docs/extra".toList = "docs/extra".toList)) :=
  have h := removeEmptyDirs_protected errnoView osRemove depthSort depthOrder_depthSort docsTree
    "/repo".toList
    ["docs/extra".toList, ".git/hooks".toList, ".".toList, ".checkpoints/v1".toList,
      "docs".toList] ["docs".toList] "docs/extra".toList (by decide)
  ⟨depthOrder_depthSort, by decide, by decide, by decide, by decide, h.1, h.2.1,
    (h.2.2.2.2.2.2.2.2 (by decide) (by decide) (by decide)).2.2.2⟩

/-- C10, with insertion sort for `sort.Slice`, for the candidates `a`, `a/b`,
`a/b` on a tree that has `a/b/c.txt`: `a/b` is attempted before `a`. -/
theorem removeEmptyDirs_deepest_first_witness :
    DepthOrder depthSort ∧
    "a".toList ∈ removeAttempts errnoView osRemove depthSort nestedTree "/repo".toList
      ["a".toList, "a/b".toList, "a/b".toList] [] ∧
    "a/b".toList ∈ removeAttempts errnoView osRemove depthSort nestedTree "/repo".toList
      ["a".toList, "a/b".toList, "a/b".toList] [] ∧
    IsProperAncestor "a".toList "a/b".toList ∧
    ∃ l1 l2 l3 : List Str,
      removeAttempts errnoView osRemove depthSort nestedTree "/repo".toList
        ["a".toList, "a/b".toList, "a/b".toList] [] =
        l1 ++ "a/b".toList :: l2 ++ "a".toList :: l3 :=
  ⟨depthOrder_depthSort, by decide, by decide, ⟨"b".toList, by decide⟩,
    (removeEmptyDirs_deepest_first errnoView osRemove depthSort depthOrder_depthSort nestedTree
      "/repo".toList ["a".toList, "a/b".toList, "a/b".toList] []).2.2 "a".toList "a/b".toList
      (by decide) (by decide) ⟨"b".toList, by decide⟩⟩


end Checkpoint
